import Mathlib

set_option maxRecDepth 8000

/-!
Verification development for the BibTeX ID fixer (src/api/app.py).

The program is embedded shallowly: each Python function of the repair
pipeline becomes a Lean function over `List Char` (with a `String`
wrapper carrying the source name).  The Python regexes are replaced by
their deterministic operational semantics, derived by hand from the
backtracking rules of `re` and documented at each definition.  The
external library `bibtexparser` (parse and serialize) is not part of the
repository; where a claim needs it, it is modelled from the spec and
marked as such.
-/

namespace BibFix

/-- ASCII fragment of Python's whitespace class (`\s`, `str.strip`):
space, tab, newline, carriage return, vertical tab, form feed. -/
def isPySpace (c : Char) : Bool :=
  c = ' ' || c = '\t' || c = '\n' || c = '\r' || c = '\x0b' || c = '\x0c'

/-- ASCII fragment of Python's `\w`: letters, digits, underscore. -/
def isWordChar (c : Char) : Bool :=
  c.isAlpha || c.isDigit || c = '_'

/-- ASCII letters and digits, the class kept by `re.sub(r"[^A-Za-z0-9]", "", ...)`. -/
def isAlnumAscii (c : Char) : Bool := c.isAlpha || c.isDigit

/-- Python `str.strip()` on the ASCII whitespace fragment. -/
def pyStrip (l : List Char) : List Char :=
  ((l.dropWhile isPySpace).reverse.dropWhile isPySpace).reverse

/-- String wrapper for `pyStrip`. -/
def pyStripS (s : String) : String := ⟨pyStrip s.data⟩

/-- Worker for `collapseWs`; the flag records whether the previous
character was whitespace (so a run emits a single underscore). -/
def collapseAux : Bool → List Char → List Char
  | _, [] => []
  | prevWs, c :: cs =>
    if isPySpace c then
      if prevWs then collapseAux true cs else '_' :: collapseAux true cs
    else
      c :: collapseAux false cs

/-- Python `re.sub(r"\s+", "_", l)`: each maximal whitespace run becomes
one underscore. -/
def collapseWs (l : List Char) : List Char := collapseAux false l

/-- Split a character list at its first comma: `some (before, after)`
with `l = before ++ ',' :: after`, or `none` when there is no comma. -/
def splitFirstComma : List Char → Option (List Char × List Char)
  | [] => none
  | c :: cs =>
    if c = ',' then some ([], cs)
    else
      match splitFirstComma cs with
      | none => none
      | some (a, b) => some (c :: a, b)

/-- Remove the maximal trailing run of characters satisfying `p`. -/
def dropTrail (p : Char → Bool) (l : List Char) : List Char :=
  (l.reverse.dropWhile p).reverse

/-- The maximal trailing run of characters satisfying `p`. -/
def takeTrail (p : Char → Bool) (l : List Char) : List Char :=
  (l.reverse.takeWhile p).reverse

/-- The replacer of `corrigir_espacos_ids_raw` (src/api/app.py lines
47-66).  `g0` is the whole matched text (`match.group(0)`), `pre` is
group 1 (`@tipo{` plus leading whitespace of the identifier slot),
`rawId` is group 2 (the identifier), `sufPart` is group 3 (trailing
whitespace plus the comma).  If the identifier has no space character it
is returned as matched; if it strips to nothing it is left for the
empty-ID pass; otherwise it is stripped and its whitespace runs become
underscores. -/
def replacerA (g0 pre rawId sufPart : List Char) : List Char :=
  if rawId.contains ' ' = false then g0
  else
    let cleanId := pyStrip rawId
    if cleanId.isEmpty then g0
    else pre ++ collapseWs cleanId ++ sufPart

/-- One attempted match of the pattern `(@\w+\s*\x7b\s*)([^,]+?)(\s*,)`
of `corrigir_espacos_ids_raw`, at a position just after a literal `@`
(`s` is the text following that `@`).  Returns
`some (replacementText, textAfterMatch)` on success.

Derivation of the deterministic semantics from `re` backtracking: the
character classes `\w`, `\s`, `\x7b` are pairwise disjoint, so `@\w+\s*\x7b`
matches exactly a maximal word run (nonempty), a maximal whitespace run,
then the brace.  Every character matched by the rest of the pattern
(`\s*`, `[^,]+?`, `\s*`) is a non-comma, and the final `,` must be the
first comma after the brace; hence the match fails iff there is no
later comma or the comma is immediate (group 2 needs one character).
The greedy inner `\s*` of group 1 takes the maximal whitespace run after
the brace, except that when everything up to the comma is whitespace it
leaves one character for the lazy group 2; the lazy group 2 then stops
as early as the greedy `\s*` of group 3 can cover the rest, i.e. group 3
takes the maximal whitespace run ending at the comma. -/
def matchA (s : List Char) : Option (List Char × List Char) :=
  let w := s.takeWhile isWordChar
  if w.isEmpty then none
  else
    let s1 := s.dropWhile isWordChar
    let ws1 := s1.takeWhile isPySpace
    match s1.dropWhile isPySpace with
    | [] => none
    | b :: tail =>
      if b = '{' then
        match splitFirstComma tail with
        | none => none
        | some (before, after) =>
          if before.isEmpty then none
          else
            let g0 := '@' :: (w ++ ws1 ++ '{' :: (before ++ [',']))
            let rest1 := before.dropWhile isPySpace
            if rest1.isEmpty then
              some (replacerA g0 ('@' :: (w ++ ws1 ++ '{' :: before.dropLast))
                      [before.getLastD ' '] [','], after)
            else
              some (replacerA g0
                      ('@' :: (w ++ ws1 ++ '{' :: before.takeWhile isPySpace))
                      (dropTrail isPySpace rest1)
                      (takeTrail isPySpace rest1 ++ [',']), after)
      else none

/-- Scanner of `re.sub` for `corrigir_espacos_ids_raw`: try a match at
every position, left to right; on a match emit the replacement and
continue after the matched text.  `fuel` only bounds the recursion and
is irrelevant once it is at least the length of the input. -/
def subAAux : Nat → List Char → List Char
  | 0, l => l
  | _, [] => []
  | fuel + 1, c :: cs =>
    if c = '@' then
      match matchA cs with
      | some (rep, after) => rep ++ subAAux fuel after
      | none => c :: subAAux fuel cs
    else c :: subAAux fuel cs

/-- `re.sub` scan for the whitespace-ID pattern over a whole text. -/
def subA (l : List Char) : List Char := subAAux l.length l

/-- Source function `corrigir_espacos_ids_raw` (src/api/app.py lines
34-68): collapse whitespace inside entry identifiers. -/
def corrigir_espacos_ids_raw (conteudo : String) : String :=
  ⟨subA conteudo.data⟩

/-- Derived form: what the replacement does to the identifier slot
(the text strictly between the opening brace and the first comma).
`matchA` always rewrites the slot to `fixId` of itself (proved below). -/
def fixId (before : List Char) : List Char :=
  let rest1 := before.dropWhile isPySpace
  if rest1.isEmpty then before
  else
    let rawId := dropTrail isPySpace rest1
    if rawId.contains ' ' = false then before
    else
      if (pyStrip rawId).isEmpty then before
      else
        before.takeWhile isPySpace ++ collapseWs (pyStrip rawId) ++
          takeTrail isPySpace rest1

/-- A simple raw entry, used to state order preservation and the
per-entry behavior of the raw passes: a type word, an identifier slot
(the text between the opening brace and the first comma) and a body
(everything up to and including the text separating it from the next
entry). -/
structure RawEntryA where
  ty : List Char
  id : List Char
  body : List Char
deriving DecidableEq, Repr

/-- Raw text of one entry: `@ty\x7bid,body`. -/
def renderA (e : RawEntryA) : List Char :=
  '@' :: (e.ty ++ '{' :: (e.id ++ ',' :: e.body))

/-- Raw text of a document made of such entries. -/
def renderListA (es : List RawEntryA) : List Char :=
  (es.map renderA).foldr (fun a b => a ++ b) []

/-- Per-entry effect of the whitespace-ID pass: the identifier slot is
rewritten to its normal form, everything else is untouched. -/
def normA (e : RawEntryA) : RawEntryA :=
  ⟨e.ty, fixId e.id, e.body⟩

/-- Well-formedness for `RawEntryA`: a nonempty word-character type, a
nonempty comma-free identifier slot, and a body containing no `@` (so
that the scan cannot start a match inside it). -/
def wfA (e : RawEntryA) : Prop :=
  e.ty ≠ [] ∧ (∀ c ∈ e.ty, isWordChar c = true) ∧ e.id ≠ [] ∧
    (∀ c ∈ e.id, c ≠ ',') ∧ (∀ c ∈ e.body, c ≠ '@')

instance (e : RawEntryA) : Decidable (wfA e) := by
  unfold wfA
  infer_instance

/-- Source function `gerar_id_titulo_ano` (src/api/app.py lines 14-27),
on character lists.  Removing every `\x7b` and every `\x7d` embeds the two
`str.replace` calls; since the result of the strip has no leading
whitespace, `re.split(r"\s+", t)[0]` is its maximal leading run of
non-whitespace characters (and the empty list when `t` is empty). -/
def gerarIdTituloAnoL (titulo ano : List Char) : List Char :=
  let t := pyStrip ((titulo.filter (fun c => c ≠ '{')).filter (fun c => c ≠ '}'))
  let primeira0 := t.takeWhile (fun c => !isPySpace c)
  let primeira1 := primeira0.filter isAlnumAscii
  let primeira := if primeira1.isEmpty then "Entry".data else primeira1
  if ano.isEmpty then primeira else primeira ++ ano

/-- Source function `gerar_id_titulo_ano`, `String` signature. -/
def gerar_id_titulo_ano (titulo ano : String) : String :=
  ⟨gerarIdTituloAnoL titulo.data ano.data⟩

/-- Case-insensitive literal match: strip `key` (given in lowercase)
from the front of the text, comparing lowercased characters
(`re.IGNORECASE` on ASCII). -/
def stripLowerPre : List Char → List Char → Option (List Char)
  | [], l => some l
  | _, [] => none
  | k :: ks, c :: cs => if c.toLower = k then stripLowerPre ks cs else none

/-- Split at the first closing brace: `some (a, b)` with
`l = a ++ chr ++ b` where `chr` is the first `\x7d`. -/
def splitFirstRBrace : List Char → Option (List Char × List Char)
  | [] => none
  | c :: cs =>
    if c = '}' then some ([], cs)
    else
      match splitFirstRBrace cs with
      | none => none
      | some (a, b) => some (c :: a, b)

/-- The lazy group of `\x7b(.+?)\x7d` under `re.DOTALL`: at least one
character, then everything up to the first following `\x7d`. -/
def grabGroup : List Char → Option (List Char)
  | [] => none
  | c :: rest =>
    match splitFirstRBrace rest with
    | none => none
    | some (a, _) => some (c :: a)

/-- One attempted match of `key\s*=\s*\x7b(.+?)\x7d` (IGNORECASE, DOTALL) at
the start of `l`; returns the group.  The classes of `\s` and the
literals `=`, `\x7b` are disjoint, so the whitespace runs are maximal. -/
def matchKeyAt (key : List Char) (l : List Char) : Option (List Char) :=
  match stripLowerPre key l with
  | none => none
  | some r1 =>
    match r1.dropWhile isPySpace with
    | '=' :: r3 =>
      match r3.dropWhile isPySpace with
      | '{' :: r5 => grabGroup r5
      | _ => none
    | _ => none

/-- `re.search` for `key\s*=\s*\x7b(.+?)\x7d`: the match at the leftmost
position where the whole pattern succeeds. -/
def searchField (key : List Char) : List Char → Option (List Char)
  | [] => none
  | c :: rest =>
    match matchKeyAt key (c :: rest) with
    | some g => some g
    | none => searchField key rest

/-- Title extraction of `corrigir_ids_vazios_raw` (lines 86-88):
`re.search(r"title\s*=\s*\x7b(.+?)\x7d", body, DOTALL|IGNORECASE)`, stripped,
defaulting to `Entry`. -/
def tituloOf (body : List Char) : List Char :=
  match searchField "title".data body with
  | some g => pyStrip g
  | none => "Entry".data

/-- Year extraction of `corrigir_ids_vazios_raw` (lines 90-92), stripped,
defaulting to the empty string. -/
def anoOf (body : List Char) : List Char :=
  match searchField "year".data body with
  | some g => pyStrip g
  | none => []

/-- The replacer of `corrigir_ids_vazios_raw` (lines 82-97): rebuild the
entry as `@tipo\x7bnovo_id,body\x7d`. -/
def replacerB (tipo body : List Char) : List Char :=
  '@' :: (tipo ++ '{' :: (gerarIdTituloAnoL (tituloOf body) (anoOf body) ++
    ',' :: (body ++ ['}'])))

/-- The lookahead `(?=@\w+|$)` of the empty-ID pattern, tested after the
greedy `\s*` has consumed a maximal whitespace run: it succeeds at end
of input or before `@` followed by a word character.  (The variant of
`$` that matches before a final newline is subsumed: that newline is
whitespace, so the greedy `\s*` already consumed it.) -/
def okLook (l : List Char) : Bool :=
  match l with
  | [] => true
  | [_] => false
  | c :: d :: _ => c = '@' && isWordChar d

/-- The lazy `(.*?)\x7d\s*(?=@\w+|$)` tail of the empty-ID pattern under
`re.DOTALL`: the body is the shortest (possibly empty) run such that the
next character is `\x7d` and, after the maximal whitespace run following
it, the lookahead holds.  Returns `some (body, textAfterMatch)`; the
whitespace run is consumed by the match. -/
def findClose : List Char → Option (List Char × List Char)
  | [] => none
  | c :: rest =>
    if c = '}' && okLook (rest.dropWhile isPySpace) then
      some ([], rest.dropWhile isPySpace)
    else
      match findClose rest with
      | none => none
      | some (body, r) => some (c :: body, r)

/-- One attempted match of `@(\w+)\s*\x7b\s*,(.*?)\x7d\s*(?=@\w+|$)`
(`corrigir_ids_vazios_raw`, line 80) at a position just after a literal
`@` (`s` is the text after that `@`).  As in `matchA`, the word and
whitespace runs are maximal and the comma must follow the whitespace run
directly. -/
def matchB (s : List Char) : Option (List Char × List Char) :=
  let tipo := s.takeWhile isWordChar
  if tipo.isEmpty then none
  else
    match (s.dropWhile isWordChar).dropWhile isPySpace with
    | '{' :: t =>
      match t.dropWhile isPySpace with
      | ',' :: t3 =>
        match findClose t3 with
        | some (body, r) => some (replacerB tipo body, r)
        | none => none
      | _ => none
    | _ => none

/-- `re.sub` scanner for the empty-ID pattern. -/
def subBAux : Nat → List Char → List Char
  | 0, l => l
  | _, [] => []
  | fuel + 1, c :: cs =>
    if c = '@' then
      match matchB cs with
      | some (rep, after) => rep ++ subBAux fuel after
      | none => c :: subBAux fuel cs
    else c :: subBAux fuel cs

/-- `re.sub` scan for the empty-ID pattern over a whole text. -/
def subB (l : List Char) : List Char := subBAux l.length l

/-- Source function `corrigir_ids_vazios_raw` (src/api/app.py lines
75-99): synthesize identifiers for entries whose identifier slot is
empty (the comma follows the opening brace up to whitespace). -/
def corrigir_ids_vazios_raw (conteudo : String) : String :=
  ⟨subB conteudo.data⟩

/-- A structured entry as `bibtexparser` exposes it: the entry dict with
its distinguished `ENTRYTYPE` and `ID` keys and the field map.  A
missing `ID`/field is conflated with the empty string, matching the
`entry.get(..., "")` / `entry.get(...) or ""` accesses in the source. -/
structure BibEntry where
  ENTRYTYPE : String
  ID : String
  fields : List (String × String)
deriving DecidableEq, Repr

/-- Field access `entry.get(k) or ""`. -/
def getField (e : BibEntry) (k : String) : String :=
  match e.fields.find? (fun p => p.1 == k) with
  | some p => p.2
  | none => ""

/-- The `while candidate in existing_ids` loop of `gerar_id_unico`
(lines 113-116), with the suffix counter starting at `sfx`.  The loop
terminates because the candidates `base_2`, `base_3`, ... are pairwise
distinct and `existing_ids` is finite; `fuel = existing_ids.length + 1`
iterations therefore always suffice. -/
def disambigAux (base : String) (existing : List String) : Nat → Nat → String
  | _, 0 => base
  | sfx, fuel + 1 =>
    let cand := base ++ "_" ++ toString sfx
    if cand ∈ existing then disambigAux base existing (sfx + 1) fuel else cand

/-- Source function `gerar_id_unico` (src/api/app.py lines 106-119).
The Python version mutates `existing_ids` (a set, used only through
membership) and returns the candidate; here the grown set is returned
alongside.  The `fallback_index` parameter is unused, as in the source. -/
def gerar_id_unico (entry : BibEntry) (existing_ids : List String)
    (_fallback_index : Nat) : String × List String :=
  let year := pyStripS (getField entry "year")
  let title := pyStripS (getField entry "title")
  let base := gerar_id_titulo_ano title year
  let candidate :=
    if base ∈ existing_ids then disambigAux base existing_ids 2 (existing_ids.length + 1)
    else base
  (candidate, existing_ids ++ [candidate])

/-- The `for idx, entry in enumerate(bib_db.entries, start=1)` loop of
`corrigir_bibtex` (lines 136-141): entries whose identifier is falsy or
strips to the empty string get a fresh identifier (only the `ID` key is
written); all others pass through.  Returns the rewritten entries, the
grown identifier set and the number of corrected entries. -/
def fixLoop : List BibEntry → List String → Nat → Nat →
    (List BibEntry × List String × Nat)
  | [], ids, _, corrected => ([], ids, corrected)
  | e :: es, ids, idx, corrected =>
    if e.ID = "" ∨ pyStripS e.ID = "" then
      let r := gerar_id_unico e ids idx
      let rest := fixLoop es r.2 (idx + 1) (corrected + 1)
      (⟨e.ENTRYTYPE, r.1, e.fields⟩ :: rest.1, rest.2)
    else
      let rest := fixLoop es ids (idx + 1) corrected
      (e :: rest.1, rest.2)

/-- The initial identifier set of `corrigir_bibtex` (line 132):
`set(e.get("ID") for e in bib_db.entries if e.get("ID"))`.  A list
stands in for the Python set; only membership is ever used. -/
def existingIds (entries : List BibEntry) : List String :=
  (entries.filter (fun e => e.ID ≠ "")).map (fun e => e.ID)

/-- The structured pass of `corrigir_bibtex` on an already-parsed entry
list: `(corrected entries, total_entradas, total_corrigidas)`. -/
def corrigirEntries (entries : List BibEntry) : List BibEntry × Nat × Nat :=
  let r := fixLoop entries (existingIds entries) 1 0
  (r.1, entries.length, r.2.2)

/-- The summary comment of `corrigir_bibtex` (lines 145-150), verbatim.
Note it interpolates only `total_corrigidas`; `total_entradas` does not
appear in it. -/
def comentario (total_corrigidas : Nat) : String :=
  "% Processamento completo.\n% IDs vazios preenchidos: " ++
    toString total_corrigidas ++
    "\n% IDs com espaços ajustados previamente.\n% Gerado por BibTeX ID Fixer (Flask).\n\n"

/-- Modelled from the spec: the serializer `bibtexparser.dumps`, which
is not part of this repository.  Per spec section 4.3 it writes each
entry back as `@type\x7bid, fields\x7d` with braced field values. -/
def dumpsEntry (e : BibEntry) : String :=
  "@" ++ e.ENTRYTYPE ++ "\x7b" ++ e.ID ++ ",\n" ++
    (e.fields.map (fun p => " " ++ p.1 ++ " = \x7b" ++ p.2 ++ "\x7d,\n")).foldr
      (fun a b => a ++ b) "" ++ "\x7d\n\n"

/-- Modelled from the spec: `bibtexparser.dumps` over a document. -/
def dumps (es : List BibEntry) : String :=
  (es.map dumpsEntry).foldr (fun a b => a ++ b) ""

/-- Modelled from the spec: the brace matcher of the permissive parser.
Given the text after an opening brace, returns the value content (inner
braces balanced) and the text after the matching closing brace. -/
def braceAux : Nat → Nat → List Char → Option (List Char × List Char)
  | 0, _, _ => none
  | _, _, [] => none
  | fuel + 1, depth, c :: cs =>
    if c = '}' then
      if depth = 0 then some ([], cs)
      else
        match braceAux fuel (depth - 1) cs with
        | none => none
        | some (v, r) => some (c :: v, r)
    else if c = '{' then
      match braceAux fuel (depth + 1) cs with
      | none => none
      | some (v, r) => some (c :: v, r)
    else
      match braceAux fuel depth cs with
      | none => none
      | some (v, r) => some (c :: v, r)

/-- Characters a field name may consist of in the parser model. -/
def isNameChar (c : Char) : Bool :=
  !(isPySpace c) && c ≠ '=' && c ≠ ',' && c ≠ '{' && c ≠ '}' && c ≠ '@'

/-- Modelled from the spec: the field list parser of the permissive,
standards-tolerant parser (`bibtexparser.loads`), which is not part of
this repository.  Fields are `name = \x7bvalue\x7d` (braces matched, outer
pair stripped) or a bare value up to the next separator; names are
lowercased.  Any shape it cannot interpret makes the whole entry fail,
matching the spec's "entries the parser cannot recognize ... are
dropped". -/
def parseFields : Nat → List Char → Option (List (String × String) × List Char)
  | 0, _ => none
  | fuel + 1, l =>
    match l.dropWhile (fun c => isPySpace c || c = ',') with
    | [] => none
    | '}' :: rest => some ([], rest)
    | l1 =>
      let name := l1.takeWhile isNameChar
      if name.isEmpty then none
      else
        match (l1.dropWhile isNameChar).dropWhile isPySpace with
        | '=' :: l3 =>
          match l3.dropWhile isPySpace with
          | '{' :: l4 =>
            match braceAux l4.length 0 l4 with
            | none => none
            | some (v, r) =>
              match parseFields fuel r with
              | none => none
              | some (fs, r2) => some ((⟨name.map Char.toLower⟩, ⟨v⟩) :: fs, r2)
          | l5 =>
            let v := l5.takeWhile (fun c => c ≠ ',' && c ≠ '}')
            let r := l5.dropWhile (fun c => c ≠ ',' && c ≠ '}')
            match parseFields fuel r with
            | none => none
            | some (fs, r2) => some ((⟨name.map Char.toLower⟩, ⟨pyStrip v⟩) :: fs, r2)
        | _ => none

/-- Modelled from the spec: one entry of the permissive parser:
`@type\x7bid, fields\x7d`, the identifier being the (stripped) text between
the brace and the first comma or closing brace. -/
def parseEntry (s : List Char) : Option (BibEntry × List Char) :=
  let ty := s.takeWhile isWordChar
  if ty.isEmpty then none
  else
    match (s.dropWhile isWordChar).dropWhile isPySpace with
    | '{' :: t =>
      let idSpan := t.takeWhile (fun c => c ≠ ',' && c ≠ '}')
      match t.dropWhile (fun c => c ≠ ',' && c ≠ '}') with
      | ',' :: r2 =>
        match parseFields r2.length r2 with
        | none => none
        | some (fs, r3) =>
          some (⟨⟨ty.map Char.toLower⟩, ⟨pyStrip idSpan⟩, fs⟩, r3)
      | '}' :: r2 => some (⟨⟨ty.map Char.toLower⟩, ⟨pyStrip idSpan⟩, []⟩, r2)
      | _ => none
    | _ => none

/-- Modelled from the spec: the scan of the permissive parser over a
document; text outside recognizable entries is skipped. -/
def parseAux : Nat → List Char → List BibEntry
  | 0, _ => []
  | _, [] => []
  | fuel + 1, c :: cs =>
    if c = '@' then
      match parseEntry cs with
      | some (e, rest) => e :: parseAux fuel rest
      | none => parseAux fuel cs
    else parseAux fuel cs

/-- Modelled from the spec: `bibtexparser.loads`, as a total function
(the spec's fallback configuration never raises and yields a possibly
empty entry list). -/
def parseBib (s : String) : List BibEntry := parseAux s.data.length s.data

/-- Source function `corrigir_bibtex` (src/api/app.py lines 122-152):
parse, fix the remaining empty identifiers, serialize and prepend the
summary comment.  The parse and the serializer are the spec-modelled
`parseBib` / `dumps`; everything between them is the source's own
logic. -/
def corrigir_bibtex (conteudo_bib : String) : String × Nat × Nat :=
  let r := corrigirEntries (parseBib conteudo_bib)
  (comentario r.2.2 ++ dumps r.1, r.2.1, r.2.2)

/-- The try/except of `corrigir_bibtex` (lines 126-130), with the
outcome of the primary parse (`BibTexParser` configuration, which may
throw) made explicit as an `Except` value; the fallback
`bibtexparser.loads` is modelled from the spec as total. -/
def corrigir_bibtex_try (primary : Except Unit (List BibEntry))
    (fallback : List BibEntry) : String × Nat × Nat :=
  let entries :=
    match primary with
    | Except.ok es => es
    | Except.error _ => fallback
  let r := corrigirEntries entries
  (comentario r.2.2 ++ dumps r.1, r.2.1, r.2.2)

/-- The three-stage pipeline of the `upload` route (src/api/app.py
lines 184-194). -/
def pipeline (conteudo : String) : String × Nat × Nat :=
  corrigir_bibtex (corrigir_ids_vazios_raw (corrigir_espacos_ids_raw conteudo))

/-- The identifier-synthesis algorithm as the spec words it (section
4.2), with the year condition amended from "non-empty after trimming"
to "non-empty": take the first whitespace-delimited token of the
brace-stripped, trimmed title; strip every character that is not an
ASCII letter or digit; fall back to the literal `Entry` when the result
is empty; append the year verbatim when it is a non-empty string. -/
def specIdSynth (titulo ano : String) : String :=
  let stripped := pyStrip ((titulo.data.filter (fun c => c ≠ '{')).filter (fun c => c ≠ '}'))
  let tok0 := (stripped.takeWhile (fun c => !isPySpace c)).filter isAlnumAscii
  let tok := if tok0 = [] then "Entry".data else tok0
  if ano.data = [] then ⟨tok⟩ else ⟨tok ++ ano.data⟩

/-- Decidable list-level prefix test, for stating the comment-block
claims. -/
def isPrefixL : List Char → List Char → Bool
  | [], _ => true
  | _ :: _, [] => false
  | a :: as, b :: bs => a = b && isPrefixL as bs

/-- A raw entry for stating the empty-ID pass: type word, identifier
slot, body, closing brace, and the separator text (whitespace) before
the next entry. -/
structure RawEntryB where
  ty : List Char
  id : List Char
  body : List Char
  sep : List Char
deriving DecidableEq, Repr

/-- Raw text of one entry: `@ty\x7bid,body\x7dsep`. -/
def renderB (e : RawEntryB) : List Char :=
  '@' :: (e.ty ++ '{' :: (e.id ++ ',' :: (e.body ++ '}' :: e.sep)))

/-- Raw text of a document made of such entries. -/
def renderListB (es : List RawEntryB) : List Char :=
  (es.map renderB).foldr (fun a b => a ++ b) []

/-- No closing brace of the list is followed, after its maximal
whitespace run, by an `@`.  At such a brace the lookahead
`(?=@\w+|\x24)` of the empty-ID pattern fails whenever more body text
follows, so the lazy body group cannot stop there early; bodies with
this property (e.g. braced `title`/`year` field values, each `\x7d`
followed by a comma) are anchored at their entry's own closing
brace. -/
def noAtAfterBrace : List Char → Bool
  | [] => true
  | c :: rest =>
    if c = '}' then
      (match rest.dropWhile isPySpace with
       | [] => true
       | d :: _ => d ≠ '@') && noAtAfterBrace rest
    else noAtAfterBrace rest

/-- Per-entry effect of the empty-ID pass: an entry whose identifier
slot is empty or whitespace-only (the pattern's `\x7b\s*,` consumes the
slot) gets the synthesized identifier and loses its trailing separator
(the matched `\s*` before the lookahead is consumed and not
re-emitted); all other entries pass through unchanged. -/
def normB (e : RawEntryB) : RawEntryB :=
  if e.id.all isPySpace = true then
    ⟨e.ty, gerarIdTituloAnoL (tituloOf e.body) (anoOf e.body), e.body, []⟩
  else e

/-- Well-formedness for `RawEntryB`: a nonempty word-character type, an
all-whitespace separator, a body without `@`; an entry whose identifier
slot is whitespace-only (or empty) needs a body none of whose closing
braces is followed, modulo whitespace, by `@` (so the match is anchored
at the entry's own closing brace), and any other identifier must start
with a character that is neither whitespace nor a comma and contain no
`@`. -/
def wfB (e : RawEntryB) : Prop :=
  e.ty ≠ [] ∧ (∀ c ∈ e.ty, isWordChar c = true) ∧
    (∀ c ∈ e.sep, isPySpace c = true) ∧ (∀ c ∈ e.body, c ≠ '@') ∧
    (e.id.all isPySpace = true → noAtAfterBrace e.body = true) ∧
    (e.id.all isPySpace = false → isPySpace (e.id.headD ' ') = false ∧
      e.id.headD ' ' ≠ ',' ∧ ∀ c ∈ e.id, c ≠ '@')

instance (e : RawEntryB) : Decidable (wfB e) := by
  unfold wfB
  infer_instance

/-- Brace balance check: scanning from nesting depth `d`, every closing
brace matches an earlier opening one and the depth returns to zero at
the end.  The values the permissive parser extracts from braced fields
are balanced in this sense. -/
def braceBal : Nat → List Char → Bool
  | d, [] => d = 0
  | d, c :: cs =>
    if c = '{' then braceBal (d + 1) cs
    else if c = '}' then
      if d = 0 then false else braceBal (d - 1) cs
    else braceBal d cs

/-- Character-level well-formedness of a parsed entry under which the
model serializer's output parses back to the same entry: a nonempty
lowercase word-character type, nonempty lowercase name-character field
names, field values that are brace-balanced and `@`-free (commas,
whitespace and nested braces are allowed — e.g. `Smith, John`), an
identifier free of whitespace, braces, `@` and commas (it may be empty
— the fixer then replaces it), and a year value equally tame once
stripped (it ends up inside the synthesized identifier). -/
def tameEntry (e : BibEntry) : Prop :=
  e.ENTRYTYPE.data ≠ [] ∧
    (∀ c ∈ e.ENTRYTYPE.data, isWordChar c = true ∧ c.toLower = c) ∧
    (∀ p ∈ e.fields, p.1.data ≠ [] ∧
      (∀ c ∈ p.1.data, isNameChar c = true ∧ c.toLower = c) ∧
      braceBal 0 p.2.data = true ∧ (∀ c ∈ p.2.data, c ≠ '@')) ∧
    (∀ c ∈ e.ID.data, isPySpace c = false ∧ c ≠ '{' ∧ c ≠ '}' ∧ c ≠ '@' ∧ c ≠ ',') ∧
    (∀ c ∈ (pyStripS (getField e "year")).data,
      isPySpace c = false ∧ c ≠ '{' ∧ c ≠ '}' ∧ c ≠ '@' ∧ c ≠ ',')

instance (e : BibEntry) : Decidable (tameEntry e) := by
  unfold tameEntry
  infer_instance

/-- Character-list view of one serialized field of `dumpsEntry`. -/
def fieldChars (p : String × String) : List Char :=
  ' ' :: (p.1.data ++ (' ' :: '=' :: ' ' :: '{' :: (p.2.data ++ ['}', ',', '\n'])))

/-- Character-list view of a serialized field list. -/
def fieldsChars (fs : List (String × String)) : List Char :=
  (fs.map fieldChars).foldr (fun a b => a ++ b) []

/-- Character-list view of one serialized entry (`dumpsEntry`). -/
def entryChars (e : BibEntry) : List Char :=
  '@' :: (e.ENTRYTYPE.data ++ '{' :: (e.ID.data ++ ',' ::
    ('\n' :: (fieldsChars e.fields ++ ['}', '\n', '\n']))))

/-- Character-list view of a serialized document (`dumps`). -/
def docChars (es : List BibEntry) : List Char :=
  (es.map entryChars).foldr (fun a b => a ++ b) []

/-- A serialized entry, viewed as a raw entry for the whitespace-ID
pass: the body runs from after the identifier's comma to the start of
the next entry. -/
def toRawA (e : BibEntry) : RawEntryA :=
  ⟨e.ENTRYTYPE.data, e.ID.data, '\n' :: (fieldsChars e.fields ++ ['}', '\n', '\n'])⟩

/-- A serialized entry, viewed as a raw entry for the empty-ID pass:
the body ends before the entry's closing brace, the separator is the
blank line `dumpsEntry` emits after it. -/
def toRawB (e : BibEntry) : RawEntryB :=
  ⟨e.ENTRYTYPE.data, e.ID.data, '\n' :: fieldsChars e.fields, ['\n', '\n']⟩

end BibFix

namespace BibFix

-- Sanity checks (concrete evaluations of the scanner).
example : corrigir_espacos_ids_raw "@article\x7bDal Maso2025, title=\x7bX\x7d\x7d" =
    "@article\x7bDal_Maso2025, title=\x7bX\x7d\x7d" := by decide

example : corrigir_espacos_ids_raw "@article\x7bDalMaso2025, title=\x7bX\x7d\x7d" =
    "@article\x7bDalMaso2025, title=\x7bX\x7d\x7d" := by decide

example : corrigir_espacos_ids_raw "@article\x7b  , title=\x7bX\x7d\x7d" =
    "@article\x7b  , title=\x7bX\x7d\x7d" := by decide

example : corrigir_ids_vazios_raw "@a\x7b,x\x7d\n@b\x7by,z\x7d" =
    "@a\x7bEntry,x\x7d@b\x7by,z\x7d" := by decide

example : corrigir_ids_vazios_raw
    "@article\x7b, title=\x7bDeep Learning\x7d, year=\x7b2020\x7d\x7d\n@article\x7b, title=\x7bDeep Learning Systems\x7d, year=\x7b2020\x7d\x7d" =
    "@article\x7bDeep2020, title=\x7bDeep Learning\x7d, year=\x7b2020\x7d\x7d@article\x7bDeep2020, title=\x7bDeep Learning Systems\x7d, year=\x7b2020\x7d\x7d" := by decide

example : gerar_id_titulo_ano "Deep Learning" "2020" = "Deep2020" := by decide

example : gerar_id_titulo_ano "" "" = "Entry" := by decide

example :
    (parseBib "@article\x7bDeep2020, title=\x7bDeep Learning\x7d, year=\x7b2020\x7d\x7d").map BibEntry.ID =
      ["Deep2020"] := by decide

example :
    ((pipeline "@article\x7b, title=\x7bDeep Learning\x7d, year=\x7b2020\x7d\x7d\n@article\x7b, title=\x7bDeep Learning Systems\x7d, year=\x7b2020\x7d\x7d").2.2 = 0) := by decide

example :
    ((corrigirEntries (parseBib "@article\x7bDeep2020, title=\x7bDeep Learning\x7d, year=\x7b2020\x7d\x7d@article\x7bDeep2020, title=\x7bDeep Learning Systems\x7d, year=\x7b2020\x7d\x7d")).1.map BibEntry.ID = ["Deep2020", "Deep2020"]) := by decide

/-! Basic lemmas about the character-list helpers. -/

theorem takeWhile_append_all {p : Char → Bool} {u : List Char}
    (h : ∀ c ∈ u, p c = true) (v : List Char) :
    (u ++ v).takeWhile p = u ++ v.takeWhile p := by
  induction u with
  | nil => simp
  | cons a as ih =>
    have ha : p a = true := h a (by simp)
    simp only [List.cons_append, List.takeWhile_cons_of_pos ha]
    rw [ih (fun c hc => h c (by simp [hc]))]

theorem dropWhile_append_all {p : Char → Bool} {u : List Char}
    (h : ∀ c ∈ u, p c = true) (v : List Char) :
    (u ++ v).dropWhile p = v.dropWhile p := by
  induction u with
  | nil => simp
  | cons a as ih =>
    have ha : p a = true := h a (by simp)
    simp only [List.cons_append, List.dropWhile_cons_of_pos ha]
    exact ih (fun c hc => h c (by simp [hc]))

theorem takeWhile_append_stop {p : Char → Bool} {u : List Char} {b : Char}
    (hall : ∀ c ∈ u, p c = true) (hb : p b = false) (v : List Char) :
    (u ++ b :: v).takeWhile p = u := by
  rw [takeWhile_append_all hall, List.takeWhile_cons_of_neg (by simp [hb]),
    List.append_nil]

theorem dropWhile_append_stop {p : Char → Bool} {u : List Char} {b : Char}
    (hall : ∀ c ∈ u, p c = true) (hb : p b = false) (v : List Char) :
    (u ++ b :: v).dropWhile p = b :: v := by
  rw [dropWhile_append_all hall, List.dropWhile_cons_of_neg (by simp [hb])]

theorem splitFirstComma_none {l : List Char} (h : ∀ c ∈ l, c ≠ ',') :
    splitFirstComma l = none := by
  induction l with
  | nil => rfl
  | cons a as ih =>
    have ha : a ≠ ',' := h a (by simp)
    simp only [splitFirstComma, if_neg ha, ih (fun c hc => h c (by simp [hc]))]

theorem splitFirstComma_of_append {u v : List Char} (h : ∀ c ∈ u, c ≠ ',') :
    splitFirstComma (u ++ ',' :: v) = some (u, v) := by
  induction u with
  | nil => simp [splitFirstComma]
  | cons a as ih =>
    have ha : a ≠ ',' := h a (by simp)
    have ih' := ih (fun c hc => h c (by simp [hc]))
    simp only [List.cons_append, splitFirstComma, if_neg ha, List.append_eq, ih']

theorem splitFirstComma_eq_some {l u v : List Char}
    (h : splitFirstComma l = some (u, v)) :
    l = u ++ ',' :: v ∧ ∀ c ∈ u, c ≠ ',' := by
  induction l generalizing u with
  | nil => simp [splitFirstComma] at h
  | cons a as ih =>
    by_cases ha : a = ','
    · subst ha
      simp only [splitFirstComma, if_true, Option.some.injEq, Prod.mk.injEq] at h
      rcases h with ⟨h1, h2⟩
      subst h2
      rw [← h1]
      simp
    · simp only [splitFirstComma, if_neg ha] at h
      cases hs : splitFirstComma as with
      | none => rw [hs] at h; simp at h
      | some p =>
        obtain ⟨a', b'⟩ := p
        rw [hs] at h
        simp only [Option.some.injEq, Prod.mk.injEq] at h
        rcases h with ⟨h1, h2⟩
        subst h2
        obtain ⟨heq, hnc⟩ := ih hs
        constructor
        · rw [← h1]; simp [heq]
        · intro c hc
          rw [← h1] at hc
          rcases List.mem_cons.mp hc with hc | hc
          · subst hc; exact ha
          · exact hnc c hc

/-! Character-class facts. -/

theorem pySpace_cases {c : Char} (h : isPySpace c = true) :
    c = ' ' ∨ c = '\t' ∨ c = '\n' ∨ c = '\r' ∨ c = '\x0b' ∨ c = '\x0c' := by
  simp only [isPySpace, Bool.or_eq_true, decide_eq_true_eq] at h
  tauto

theorem space_not_word {c : Char} (h : isPySpace c = true) :
    isWordChar c = false := by
  rcases pySpace_cases h with h2 | h2 | h2 | h2 | h2 | h2 <;> (subst h2; decide)

theorem word_not_space {c : Char} (h : isWordChar c = true) :
    isPySpace c = false := by
  cases hs : isPySpace c
  · rfl
  · rw [space_not_word hs] at h; exact absurd h (by simp)

theorem space_not_comma {c : Char} (h : isPySpace c = true) : c ≠ ',' := by
  rcases pySpace_cases h with h2 | h2 | h2 | h2 | h2 | h2 <;> (subst h2; decide)

theorem space_not_at {c : Char} (h : isPySpace c = true) : c ≠ '@' := by
  rcases pySpace_cases h with h2 | h2 | h2 | h2 | h2 | h2 <;> (subst h2; decide)

theorem space_not_lbrace {c : Char} (h : isPySpace c = true) : c ≠ '{' := by
  rcases pySpace_cases h with h2 | h2 | h2 | h2 | h2 | h2 <;> (subst h2; decide)

theorem word_not_comma {c : Char} (h : isWordChar c = true) : c ≠ ',' := by
  intro he; subst he; revert h; decide

theorem word_not_at {c : Char} (h : isWordChar c = true) : c ≠ '@' := by
  intro he; subst he; revert h; decide

theorem word_not_lbrace {c : Char} (h : isWordChar c = true) : c ≠ '{' := by
  intro he; subst he; revert h; decide

/-! Facts about `collapseAux` / `collapseWs`. -/

theorem collapseAux_not_space :
    ∀ (b : Bool) (l : List Char), ∀ c ∈ collapseAux b l, isPySpace c = false := by
  intro b l
  induction l generalizing b with
  | nil => intro c hc; simp [collapseAux] at hc
  | cons a as ih =>
    intro c hc
    simp only [collapseAux] at hc
    split at hc
    · split at hc
      · exact ih true c hc
      · rcases List.mem_cons.mp hc with rfl | hc
        · decide
        · exact ih true c hc
    · rename_i hna
      rcases List.mem_cons.mp hc with rfl | hc
      · cases hs : isPySpace c
        · rfl
        · exact absurd hs (by simpa using hna)
      · exact ih false c hc

theorem collapseAux_mem :
    ∀ (b : Bool) (l : List Char), ∀ c ∈ collapseAux b l, c = '_' ∨ c ∈ l := by
  intro b l
  induction l generalizing b with
  | nil => intro c hc; simp [collapseAux] at hc
  | cons a as ih =>
    intro c hc
    simp only [collapseAux] at hc
    split at hc
    · split at hc
      · rcases ih true c hc with h | h
        · exact Or.inl h
        · exact Or.inr (by simp [h])
      · rcases List.mem_cons.mp hc with rfl | hc
        · exact Or.inl rfl
        · rcases ih true c hc with h | h
          · exact Or.inl h
          · exact Or.inr (by simp [h])
    · rcases List.mem_cons.mp hc with rfl | hc
      · exact Or.inr (by simp)
      · rcases ih false c hc with h | h
        · exact Or.inl h
        · exact Or.inr (by simp [h])

theorem collapseAux_cons_not_space {b : Bool} {a : Char} (as : List Char)
    (h : isPySpace a = false) :
    collapseAux b (a :: as) = a :: collapseAux false as := by
  simp [collapseAux, h]

/-! Facts about `dropTrail` / `takeTrail` / `pyStrip`. -/

theorem dropTrail_append_takeTrail (p : Char → Bool) (l : List Char) :
    dropTrail p l ++ takeTrail p l = l := by
  unfold dropTrail takeTrail
  rw [← List.reverse_append, List.takeWhile_append_dropWhile, List.reverse_reverse]

theorem takeTrail_all (p : Char → Bool) (l : List Char) :
    ∀ c ∈ takeTrail p l, p c = true := by
  intro c hc
  unfold takeTrail at hc
  exact List.mem_takeWhile_imp (List.mem_reverse.mp hc)

theorem trail_decomp_of_all {p : Char → Bool} {x w : List Char}
    (hx : ∀ c ∈ x, p c = false) (hw : ∀ c ∈ w, p c = true) :
    dropTrail p (x ++ w) = x ∧ takeTrail p (x ++ w) = w := by
  have hrev : (x ++ w).reverse = w.reverse ++ x.reverse := by simp
  have hwrev : ∀ c ∈ w.reverse, p c = true := fun c hc => hw c (List.mem_reverse.mp hc)
  have hdrop : (x.reverse).dropWhile p = x.reverse := by
    cases hx2 : x.reverse with
    | nil => rfl
    | cons a as =>
      have ha : a ∈ x := List.mem_reverse.mp (by rw [hx2]; simp)
      rw [List.dropWhile_cons_of_neg (by simp [hx a ha])]
  have htake : (x.reverse).takeWhile p = [] := by
    cases hx2 : x.reverse with
    | nil => rfl
    | cons a as =>
      have ha : a ∈ x := List.mem_reverse.mp (by rw [hx2]; simp)
      rw [List.takeWhile_cons_of_neg (by simp [hx a ha])]
  constructor
  · unfold dropTrail
    rw [hrev, dropWhile_append_all hwrev, hdrop, List.reverse_reverse]
  · unfold takeTrail
    rw [hrev, takeWhile_append_all hwrev, htake, List.append_nil, List.reverse_reverse]

theorem dropTrail_ne_nil {p : Char → Bool} {l : List Char} {a : Char} {as : List Char}
    (hl : l = a :: as) (ha : p a = false) : dropTrail p l ≠ [] := by
  intro hcon
  have h1 : l = takeTrail p l := by
    conv_lhs => rw [← dropTrail_append_takeTrail p l]
    rw [hcon, List.nil_append]
  have h2 : p a = true := takeTrail_all p l a (by rw [← h1, hl]; simp)
  rw [ha] at h2
  exact absurd h2 (by simp)

theorem head_dropTrail {p : Char → Bool} {l : List Char}
    (h : dropTrail p l ≠ []) : (dropTrail p l).head? = l.head? := by
  conv_rhs => rw [← dropTrail_append_takeTrail p l]
  cases hd : dropTrail p l with
  | nil => exact absurd hd h
  | cons a as => simp

theorem dropTrail_subset {p : Char → Bool} {l : List Char} :
    ∀ c ∈ dropTrail p l, c ∈ l := by
  intro c hc
  rw [← dropTrail_append_takeTrail p l]
  exact List.mem_append.mpr (Or.inl hc)

theorem takeTrail_subset {p : Char → Bool} {l : List Char} :
    ∀ c ∈ takeTrail p l, c ∈ l := by
  intro c hc
  rw [← dropTrail_append_takeTrail p l]
  exact List.mem_append.mpr (Or.inr hc)

theorem getLast?_dropTrail_not {p : Char → Bool} (l : List Char) {c : Char}
    (h : (dropTrail p l).getLast? = some c) : p c = false := by
  unfold dropTrail at h
  rw [List.getLast?_reverse] at h
  have h2 := List.head?_dropWhile_not p l.reverse
  rw [h] at h2
  exact h2

theorem pyStrip_eq_self {l : List Char}
    (h1 : ∀ c, l.head? = some c → isPySpace c = false)
    (h2 : ∀ c, l.getLast? = some c → isPySpace c = false) :
    pyStrip l = l := by
  unfold pyStrip
  have hd : l.dropWhile isPySpace = l := by
    cases hl : l with
    | nil => rfl
    | cons a as =>
      rw [List.dropWhile_cons_of_neg (by simp [h1 a (by rw [hl]; rfl)])]
  rw [hd]
  have hrev : l.reverse.dropWhile isPySpace = l.reverse := by
    cases hl : l.reverse with
    | nil => rfl
    | cons a as =>
      have ha : l.getLast? = some a := by
        rw [← List.head?_reverse, hl]; rfl
      rw [List.dropWhile_cons_of_neg (by simp [h2 a ha])]
  rw [hrev, List.reverse_reverse]

theorem getLastD_mem {l : List Char} {d : Char} (h : l ≠ []) : l.getLastD d ∈ l := by
  cases l with
  | nil => exact absurd rfl h
  | cons a as =>
    rw [List.getLastD_eq_getLast?, List.getLast?_eq_getLast _ (by simp)]
    simp [List.getLast_mem]

theorem contains_space_false {l : List Char} (h : ∀ c ∈ l, isPySpace c = false) :
    l.contains ' ' = false := by
  cases hc : l.contains ' '
  · rfl
  · have hm : ' ' ∈ l := by
      simpa using List.contains_iff_exists_mem_beq.mp hc
    have h2 := h ' ' hm
    exact absurd h2 (by decide)

theorem contains_space_single {c : Char} (h : ¬ c = ' ') :
    ([c] : List Char).contains ' ' = false := by
  cases hcc : ([c] : List Char).contains ' '
  · rfl
  · have hm : ' ' ∈ [c] := by
      simpa using List.contains_iff_exists_mem_beq.mp hcc
    simp at hm
    exact absurd hm.symm h

/-! The shape of a `matchA` attempt on text of the form
`word-run ++ whitespace-run ++ rest`. -/

theorem takeWhile_word_shape {w ws1 z : List Char}
    (hwall : ∀ c ∈ w, isWordChar c = true)
    (hws1 : ∀ c ∈ ws1, isPySpace c = true)
    (hz : ws1 = [] → ∀ c, z.head? = some c → isWordChar c = false) :
    (w ++ (ws1 ++ z)).takeWhile isWordChar = w ∧
      (w ++ (ws1 ++ z)).dropWhile isWordChar = ws1 ++ z := by
  have hrest : (ws1 ++ z).takeWhile isWordChar = [] ∧
      (ws1 ++ z).dropWhile isWordChar = ws1 ++ z := by
    cases hws : ws1 with
    | nil =>
      cases hzz : z with
      | nil => simp
      | cons a as =>
        have ha : ¬ isWordChar a = true := by
          simp [hz hws a (by rw [hzz]; rfl)]
        exact ⟨by simp [List.takeWhile_cons_of_neg ha],
               by simp [List.dropWhile_cons_of_neg ha]⟩
    | cons a as =>
      have ha : ¬ isWordChar a = true := by
        simp [space_not_word (hws1 a (by rw [hws]; simp))]
      exact ⟨by simp [List.takeWhile_cons_of_neg ha],
             by simp [List.dropWhile_cons_of_neg ha]⟩
  constructor
  · rw [takeWhile_append_all hwall, hrest.1, List.append_nil]
  · rw [dropWhile_append_all hwall, hrest.2]

theorem ws_brace_shape {ws1 z : List Char}
    (hws1 : ∀ c ∈ ws1, isPySpace c = true) :
    (ws1 ++ '{' :: z).takeWhile isPySpace = ws1 ∧
      (ws1 ++ '{' :: z).dropWhile isPySpace = '{' :: z := by
  constructor
  · exact takeWhile_append_stop hws1 (by decide) z
  · exact dropWhile_append_stop hws1 (by decide) z

/-- Computation of a successful `matchA` on a decomposed input: the
match rewrites the identifier slot `before` to `fixId before` and the
scan resumes right after the comma. -/
theorem matchA_parse {w ws1 before after : List Char}
    (hw : w ≠ []) (hwall : ∀ c ∈ w, isWordChar c = true)
    (hws1 : ∀ c ∈ ws1, isPySpace c = true)
    (hbe : before ≠ []) (hbc : ∀ c ∈ before, c ≠ ',') :
    matchA (w ++ (ws1 ++ '{' :: (before ++ ',' :: after))) =
      some ('@' :: (w ++ ws1 ++ '{' :: (fixId before ++ [','])), after) := by
  have hshape := takeWhile_word_shape (z := '{' :: (before ++ ',' :: after))
    hwall hws1 (fun _ c hc => by
      simp only [List.head?_cons, Option.some.injEq] at hc
      rw [← hc]; decide)
  have hbrace := ws_brace_shape (z := before ++ ',' :: after) hws1
  have hw2 : w.isEmpty = false := by cases w with
    | nil => exact absurd rfl hw
    | cons a as => rfl
  have hsplit : splitFirstComma (before ++ ',' :: after) = some (before, after) :=
    splitFirstComma_of_append hbc
  have hbe2 : before.isEmpty = false := by cases before with
    | nil => exact absurd rfl hbe
    | cons a as => rfl
  unfold matchA
  simp only [hshape.1, hshape.2, hw2, Bool.false_eq_true, if_false, hbrace.1, hbrace.2,
    if_true, hsplit, hbe2]
  cases hrest : before.dropWhile isPySpace with
  | nil =>
    have hall : ∀ c ∈ before, isPySpace c = true := List.dropWhile_eq_nil_iff.mp hrest
    have hfix : fixId before = before := by
      unfold fixId
      rw [hrest]
      rfl
    have hlast : isPySpace (before.getLastD ' ') = true :=
      hall _ (getLastD_mem hbe)
    rw [hfix]
    unfold replacerA
    by_cases hsp : before.getLastD ' ' = ' '
    · rw [hsp]
      have hc1 : (([' '] : List Char).contains ' ') = true := by decide
      have hc2 : pyStrip [' '] = ([] : List Char) := by decide
      simp [hc1, hc2]
    · rw [contains_space_single hsp]
      simp
  | cons d ds =>
    have hd : isPySpace d = false := by
      have h2 := List.head?_dropWhile_not isPySpace before
      rw [hrest] at h2
      exact h2
    have hrid : dropTrail isPySpace (d :: ds) ≠ [] := dropTrail_ne_nil rfl hd
    have hridh : ∀ c, (dropTrail isPySpace (d :: ds)).head? = some c → isPySpace c = false := by
      intro c hc
      rw [head_dropTrail hrid] at hc
      simp only [List.head?_cons, Option.some.injEq] at hc
      rw [← hc]; exact hd
    have hstrip : pyStrip (dropTrail isPySpace (d :: ds)) = dropTrail isPySpace (d :: ds) :=
      pyStrip_eq_self hridh (fun c hc => getLast?_dropTrail_not _ hc)
    unfold replacerA fixId
    rw [hrest]
    simp only [List.isEmpty_cons, Bool.false_eq_true, if_false]
    by_cases hcs : (dropTrail isPySpace (d :: ds)).contains ' ' = false
    · simp only [hcs, if_true]
    · simp only [hcs, if_false]
      rw [hstrip]
      have hne : (dropTrail isPySpace (d :: ds)).isEmpty = false := by
        cases hh : dropTrail isPySpace (d :: ds) with
        | nil => exact absurd hh hrid
        | cons x xs => rfl
      simp only [hne, Bool.false_eq_true, if_false]
      simp [List.append_assoc]

theorem splitFirstComma_none_inv {l : List Char} (h : splitFirstComma l = none) :
    ∀ c ∈ l, c ≠ ',' := by
  induction l with
  | nil => simp
  | cons a as ih =>
    intro c hc
    by_cases ha : a = ','
    · simp [splitFirstComma, ha] at h
    · simp only [splitFirstComma, if_neg ha] at h
      cases hs : splitFirstComma as with
      | some p =>
        obtain ⟨x, y⟩ := p
        rw [hs] at h
        simp at h
      | none =>
        rcases List.mem_cons.mp hc with rfl | hc
        · exact ha
        · exact ih hs c hc

theorem takeWhile_subset_mem {p : Char → Bool} {l : List Char} :
    ∀ c ∈ l.takeWhile p, c ∈ l := by
  intro c hc
  rw [← List.takeWhile_append_dropWhile p l]
  exact List.mem_append.mpr (Or.inl hc)

theorem dropWhile_subset_mem {p : Char → Bool} {l : List Char} :
    ∀ c ∈ l.dropWhile p, c ∈ l := by
  intro c hc
  rw [← List.takeWhile_append_dropWhile p l]
  exact List.mem_append.mpr (Or.inr hc)

theorem matchA_none_of_word_empty {s : List Char}
    (h : s.takeWhile isWordChar = []) : matchA s = none := by
  unfold matchA
  simp [h]

theorem ws_stop_shape {ws1 z : List Char}
    (hws1 : ∀ c ∈ ws1, isPySpace c = true)
    (hz : ∀ c, z.head? = some c → isPySpace c = false) :
    (ws1 ++ z).takeWhile isPySpace = ws1 ∧ (ws1 ++ z).dropWhile isPySpace = z := by
  cases hzz : z with
  | nil =>
    constructor
    · rw [takeWhile_append_all hws1]; simp
    · rw [dropWhile_append_all hws1]; simp
  | cons a as =>
    have ha : isPySpace a = false := hz a (by rw [hzz]; rfl)
    exact ⟨takeWhile_append_stop hws1 ha as, dropWhile_append_stop hws1 ha as⟩

/-- A `matchA` attempt fails when the character after the word and
whitespace runs is not an opening brace (or the input ends there). -/
theorem matchA_stop_none {w ws1 z : List Char}
    (hwall : ∀ c ∈ w, isWordChar c = true)
    (hws1 : ∀ c ∈ ws1, isPySpace c = true)
    (hz1 : ws1 = [] → ∀ c, z.head? = some c → isWordChar c = false)
    (hz2 : ∀ c, z.head? = some c → isPySpace c = false)
    (hz3 : ∀ c, z.head? = some c → ¬ c = '{') :
    matchA (w ++ (ws1 ++ z)) = none := by
  have hshape := takeWhile_word_shape hwall hws1 hz1
  have hstop := ws_stop_shape hws1 hz2
  unfold matchA
  simp only [hshape.1, hshape.2, hstop.1, hstop.2]
  by_cases hwe : w.isEmpty = true
  · simp [hwe]
  · simp only [hwe, Bool.false_eq_true, if_false]
    cases hzz : z with
    | nil => rfl
    | cons b t =>
      have hb : ¬ b = '{' := hz3 b (by rw [hzz]; rfl)
      simp [hb]

/-- A `matchA` attempt fails when there is no comma after the brace. -/
theorem matchA_brace_nocomma {w ws1 tail : List Char}
    (hwall : ∀ c ∈ w, isWordChar c = true)
    (hws1 : ∀ c ∈ ws1, isPySpace c = true)
    (htail : ∀ c ∈ tail, c ≠ ',') :
    matchA (w ++ (ws1 ++ '{' :: tail)) = none := by
  have hshape := takeWhile_word_shape (z := '{' :: tail) hwall hws1
    (fun _ c hc => by
      simp only [List.head?_cons, Option.some.injEq] at hc
      rw [← hc]; decide)
  have hbrace := ws_brace_shape (z := tail) hws1
  unfold matchA
  simp only [hshape.1, hshape.2, hbrace.1, hbrace.2, splitFirstComma_none htail]
  by_cases hwe : w.isEmpty = true
  · simp [hwe]
  · simp [hwe]

/-- A `matchA` attempt fails when the comma follows the brace directly
(the lazy group 2 needs at least one character). -/
theorem matchA_brace_empty {w ws1 after : List Char}
    (hwall : ∀ c ∈ w, isWordChar c = true)
    (hws1 : ∀ c ∈ ws1, isPySpace c = true) :
    matchA (w ++ (ws1 ++ '{' :: ',' :: after)) = none := by
  have hshape := takeWhile_word_shape (z := '{' :: ',' :: after) hwall hws1
    (fun _ c hc => by
      simp only [List.head?_cons, Option.some.injEq] at hc
      rw [← hc]; decide)
  have hbrace := ws_brace_shape (z := ',' :: after) hws1
  have hsp : splitFirstComma (',' :: after) = some ([], after) := by
    simp [splitFirstComma]
  unfold matchA
  simp only [hshape.1, hshape.2, hbrace.1, hbrace.2, hsp]
  by_cases hwe : w.isEmpty = true
  · simp [hwe]
  · simp [hwe]

/-- Inversion of a successful `matchA`: the input decomposes as
`word-run ++ whitespace-run ++ brace ++ slot ++ comma ++ rest` and the
replacement is the `fixId` rewriting of the slot. -/
theorem matchA_some_inv {s rep after : List Char}
    (h : matchA s = some (rep, after)) :
    ∃ w ws1 before, w ≠ [] ∧ (∀ c ∈ w, isWordChar c = true) ∧
      (∀ c ∈ ws1, isPySpace c = true) ∧ before ≠ [] ∧ (∀ c ∈ before, c ≠ ',') ∧
      s = w ++ (ws1 ++ '{' :: (before ++ ',' :: after)) ∧
      rep = '@' :: (w ++ ws1 ++ '{' :: (fixId before ++ [','])) := by
  have hwall : ∀ c ∈ s.takeWhile isWordChar, isWordChar c = true :=
    fun c hc => List.mem_takeWhile_imp hc
  have hdecomp : s = s.takeWhile isWordChar ++ s.dropWhile isWordChar :=
    (List.takeWhile_append_dropWhile _ _).symm
  have hws1all : ∀ c ∈ (s.dropWhile isWordChar).takeWhile isPySpace, isPySpace c = true :=
    fun c hc => List.mem_takeWhile_imp hc
  have hs1decomp : s.dropWhile isWordChar =
      (s.dropWhile isWordChar).takeWhile isPySpace ++
        (s.dropWhile isWordChar).dropWhile isPySpace :=
    (List.takeWhile_append_dropWhile _ _).symm
  have hwne : s.takeWhile isWordChar ≠ [] := by
    intro hcon
    rw [matchA_none_of_word_empty hcon] at h
    exact absurd h (by simp)
  cases hs2 : (s.dropWhile isWordChar).dropWhile isPySpace with
  | nil =>
    exfalso
    have hz : ∀ c, ([] : List Char).head? = some c → isPySpace c = false := by
      intro c hc; simp at hc
    have := matchA_stop_none hwall hws1all
      (fun _ c hc => by simp at hc) hz (fun c hc => by simp at hc)
    rw [← hs2, ← hs1decomp, ← hdecomp] at this
    rw [this] at h
    exact absurd h (by simp)
  | cons b t =>
    have hbns : isPySpace b = false := by
      have h2 := List.head?_dropWhile_not isPySpace (s.dropWhile isWordChar)
      rw [hs2] at h2
      exact h2
    have hbnw : (s.dropWhile isWordChar).takeWhile isPySpace = [] →
        isWordChar b = false := by
      intro hnil
      have hseq : (s.dropWhile isWordChar).dropWhile isPySpace = s.dropWhile isWordChar := by
        conv_rhs => rw [hs1decomp, hnil, List.nil_append]
      have hs1bt : s.dropWhile isWordChar = b :: t := by rw [← hseq, hs2]
      have h2 := List.head?_dropWhile_not isWordChar s
      rw [hs1bt] at h2
      exact h2
    by_cases hb : b = '{'
    · subst hb
      cases hsp : splitFirstComma t with
      | none =>
        exfalso
        have := matchA_brace_nocomma hwall hws1all (splitFirstComma_none_inv hsp)
        rw [← hs2, ← hs1decomp, ← hdecomp] at this
        rw [this] at h
        exact absurd h (by simp)
      | some p =>
        obtain ⟨before, after'⟩ := p
        obtain ⟨hteq, hbnc⟩ := splitFirstComma_eq_some hsp
        cases hbe : before with
        | nil =>
          exfalso
          subst hbe
          simp only [List.nil_append] at hteq
          have := @matchA_brace_empty _ _ after' hwall hws1all
          rw [← hteq, ← hs2, ← hs1decomp, ← hdecomp] at this
          rw [this] at h
          exact absurd h (by simp)
        | cons d dd =>
          have hbne : before ≠ [] := by rw [hbe]; simp
          have hm := @matchA_parse _ _ _ after' hwne hwall hws1all hbne hbnc
          have hseq2 : s = s.takeWhile isWordChar ++
              ((s.dropWhile isWordChar).takeWhile isPySpace ++
                '{' :: (before ++ ',' :: after')) := by
            rw [← hteq, ← hs2, ← hs1decomp, ← hdecomp]
          rw [← hseq2] at hm
          rw [hm] at h
          simp only [Option.some.injEq, Prod.mk.injEq] at h
          refine ⟨s.takeWhile isWordChar, (s.dropWhile isWordChar).takeWhile isPySpace,
            before, hwne, hwall, hws1all, hbne, hbnc, ?_, ?_⟩
          · rw [← h.2]
            exact hseq2
          · exact h.1.symm
    · exfalso
      have := matchA_stop_none (z := b :: t) hwall hws1all
        (fun hnil c hc => by
          simp only [List.head?_cons, Option.some.injEq] at hc
          rw [← hc]; exact hbnw hnil)
        (fun c hc => by
          simp only [List.head?_cons, Option.some.injEq] at hc
          rw [← hc]; exact hbns)
        (fun c hc => by
          simp only [List.head?_cons, Option.some.injEq] at hc
          rw [← hc]; exact hb)
      rw [← hs2, ← hs1decomp, ← hdecomp] at this
      rw [this] at h
      exact absurd h (by simp)

theorem matchA_after_lt {s rep after : List Char}
    (h : matchA s = some (rep, after)) : after.length < s.length := by
  obtain ⟨w, ws1, before, hwne, _, _, _, _, hseq, _⟩ := matchA_some_inv h
  rw [hseq]
  have hw1 : 1 ≤ w.length := by
    cases w with
    | nil => exact absurd rfl hwne
    | cons a as => simp
  simp only [List.length_append, List.length_cons]
  omega

theorem matchA_some_comma_mem {s rep after : List Char}
    (h : matchA s = some (rep, after)) : ',' ∈ s := by
  obtain ⟨w, ws1, before, _, _, _, _, _, hseq, _⟩ := matchA_some_inv h
  rw [hseq]
  simp

/-! Properties of `fixId`. -/

theorem rawId_facts {d : Char} {ds : List Char} (hd : isPySpace d = false) :
    dropTrail isPySpace (d :: ds) ≠ [] ∧
      pyStrip (dropTrail isPySpace (d :: ds)) = dropTrail isPySpace (d :: ds) := by
  have hne : dropTrail isPySpace (d :: ds) ≠ [] := dropTrail_ne_nil rfl hd
  refine ⟨hne, pyStrip_eq_self ?_ (fun c hc => getLast?_dropTrail_not _ hc)⟩
  intro c hc
  rw [head_dropTrail hne] at hc
  simp only [List.head?_cons, Option.some.injEq] at hc
  rw [← hc]
  exact hd

theorem fixId_cases (before : List Char) :
    fixId before = before ∨
      ∃ d ds, before.dropWhile isPySpace = d :: ds ∧ isPySpace d = false ∧
        fixId before = before.takeWhile isPySpace ++
          (collapseWs (dropTrail isPySpace (d :: ds)) ++ takeTrail isPySpace (d :: ds)) := by
  unfold fixId
  cases hrest : before.dropWhile isPySpace with
  | nil => left; rfl
  | cons d ds =>
    have hd : isPySpace d = false := by
      have h2 := List.head?_dropWhile_not isPySpace before
      rw [hrest] at h2
      exact h2
    obtain ⟨hne, hstrip⟩ := @rawId_facts d ds hd
    by_cases hc : (dropTrail isPySpace (d :: ds)).contains ' ' = false
    · left
      rw [if_neg (by simp)]
      rw [if_pos hc]
    · right
      refine ⟨d, ds, rfl, hd, ?_⟩
      have hie : (dropTrail isPySpace (d :: ds)).isEmpty = false := by
        cases h2 : dropTrail isPySpace (d :: ds) with
        | nil => exact absurd h2 hne
        | cons x xs => rfl
      rw [if_neg (by simp)]
      rw [if_neg hc]
      rw [hstrip]
      rw [if_neg (by simp [hie])]
      simp [List.append_assoc]

theorem fixId_ne_nil {before : List Char} (h : before ≠ []) : fixId before ≠ [] := by
  rcases fixId_cases before with heq | ⟨d, ds, hrest, hd, heq⟩
  · rw [heq]; exact h
  · rw [heq]
    intro hcon
    rcases List.append_eq_nil.mp hcon with ⟨_, h2⟩
    rcases List.append_eq_nil.mp h2 with ⟨h3, _⟩
    obtain ⟨hne, _⟩ := @rawId_facts d ds hd
    cases hr : dropTrail isPySpace (d :: ds) with
    | nil => exact hne hr
    | cons x xs =>
      have hx : isPySpace x = false := by
        have := head_dropTrail (l := d :: ds) (by rw [hr]; simp)
        rw [hr] at this
        simp only [List.head?_cons, Option.some.injEq] at this
        rw [this]; exact hd
      rw [hr, collapseWs, collapseAux_cons_not_space xs hx] at h3
      exact absurd h3 (by simp)

theorem fixId_comma_free {before : List Char} (hbc : ∀ c ∈ before, c ≠ ',') :
    ∀ c ∈ fixId before, c ≠ ',' := by
  rcases fixId_cases before with heq | ⟨d, ds, hrest, hd, heq⟩
  · rw [heq]; exact hbc
  · rw [heq]
    intro c hc
    rcases List.mem_append.mp hc with hc | hc
    · exact hbc c (takeWhile_subset_mem c hc)
    · rcases List.mem_append.mp hc with hc | hc
      · rcases collapseAux_mem false _ c hc with rfl | hc
        · decide
        · refine hbc c ?_
          rw [← List.takeWhile_append_dropWhile isPySpace before, hrest]
          exact List.mem_append.mpr (Or.inr (dropTrail_subset c hc))
      · refine hbc c ?_
        rw [← List.takeWhile_append_dropWhile isPySpace before, hrest]
        exact List.mem_append.mpr (Or.inr (takeTrail_subset c hc))

theorem fixId_idem (before : List Char) : fixId (fixId before) = fixId before := by
  rcases fixId_cases before with heq | ⟨d, ds, hrest, hd, heq⟩
  · rw [heq, heq]
  · obtain ⟨hrne, _⟩ := @rawId_facts d ds hd
    have hwsa : ∀ c ∈ before.takeWhile isPySpace, isPySpace c = true :=
      fun c hc => List.mem_takeWhile_imp hc
    have hnewns : ∀ c ∈ collapseWs (dropTrail isPySpace (d :: ds)), isPySpace c = false :=
      fun c hc => collapseAux_not_space false _ c hc
    have hwsb : ∀ c ∈ takeTrail isPySpace (d :: ds), isPySpace c = true :=
      takeTrail_all isPySpace (d :: ds)
    obtain ⟨x, xs, hnew⟩ : ∃ x xs, collapseWs (dropTrail isPySpace (d :: ds)) = x :: xs := by
      cases hr : dropTrail isPySpace (d :: ds) with
      | nil => exact absurd hr hrne
      | cons y ys =>
        have hy : isPySpace y = false := by
          have h2 := head_dropTrail (l := d :: ds) (by rw [hr]; simp)
          rw [hr] at h2
          simp only [List.head?_cons, Option.some.injEq] at h2
          rw [h2]; exact hd
        exact ⟨y, collapseAux false ys, by rw [collapseWs, collapseAux_cons_not_space ys hy]⟩
    have hx : isPySpace x = false := hnewns x (by rw [hnew]; simp)
    -- compute fixId on the rewritten slot
    have hdrop2 : (before.takeWhile isPySpace ++
        (collapseWs (dropTrail isPySpace (d :: ds)) ++ takeTrail isPySpace (d :: ds))).dropWhile
          isPySpace =
        collapseWs (dropTrail isPySpace (d :: ds)) ++ takeTrail isPySpace (d :: ds) := by
      rw [dropWhile_append_all hwsa, hnew]
      rw [List.cons_append, List.dropWhile_cons_of_neg (by simp [hx])]
    have htrail := trail_decomp_of_all hnewns hwsb
    rw [heq]
    unfold fixId
    rw [hdrop2]
    rw [hnew]
    simp only [List.cons_append, List.isEmpty_cons, Bool.false_eq_true, if_false]
    rw [← List.cons_append, ← hnew, htrail.1]
    rw [contains_space_false hnewns]
    simp

/-! Unfolding equations of the `subA` scanner. -/

theorem subAAux_congr : ∀ (f1 f2 : Nat) (l : List Char),
    l.length ≤ f1 → l.length ≤ f2 → subAAux f1 l = subAAux f2 l := by
  intro f1
  induction f1 with
  | zero =>
    intro f2 l h1 _
    have hl : l = [] := List.length_eq_zero.mp (Nat.le_zero.mp h1)
    subst hl
    cases f2 <;> rfl
  | succ f ih =>
    intro f2 l h1 h2
    cases l with
    | nil => cases f2 <;> rfl
    | cons c cs =>
      cases f2 with
      | zero => simp at h2
      | succ f2' =>
        simp only [List.length_cons, Nat.add_le_add_iff_right] at h1 h2
        show subAAux (f + 1) (c :: cs) = subAAux (f2' + 1) (c :: cs)
        simp only [subAAux]
        by_cases hc : c = '@'
        · simp only [if_pos hc]
          cases m : matchA cs with
          | none =>
            show c :: subAAux f cs = c :: subAAux f2' cs
            rw [ih f2' cs h1 h2]
          | some p =>
            obtain ⟨rep, after⟩ := p
            have hlt := matchA_after_lt m
            show rep ++ subAAux f after = rep ++ subAAux f2' after
            rw [ih f2' after (by omega) (by omega)]
        · simp only [if_neg hc]
          rw [ih f2' cs h1 h2]

theorem subA_nil : subA [] = [] := rfl

theorem subA_cons_not_at {c : Char} {cs : List Char} (h : ¬ c = '@') :
    subA (c :: cs) = c :: subA cs := by
  show subAAux (c :: cs).length (c :: cs) = c :: subAAux cs.length cs
  simp only [List.length_cons, subAAux, if_neg h]

theorem subA_at_none {cs : List Char} (h : matchA cs = none) :
    subA ('@' :: cs) = '@' :: subA cs := by
  show subAAux ('@' :: cs).length ('@' :: cs) = '@' :: subAAux cs.length cs
  simp only [List.length_cons, subAAux, if_pos rfl, if_true, h]

theorem subA_at_some {cs rep after : List Char}
    (h : matchA cs = some (rep, after)) :
    subA ('@' :: cs) = rep ++ subA after := by
  show subAAux ('@' :: cs).length ('@' :: cs) = rep ++ subAAux after.length after
  simp only [List.length_cons, subAAux, if_pos rfl, if_true, h]
  congr 1
  exact subAAux_congr cs.length after.length after
    (Nat.le_of_lt (matchA_after_lt h)) Nat.le.refl

theorem subA_append_no_at {u : List Char} (hu : ∀ c ∈ u, c ≠ '@')
    (v : List Char) : subA (u ++ v) = u ++ subA v := by
  induction u with
  | nil => simp
  | cons a as ih =>
    rw [List.cons_append, subA_cons_not_at (hu a (by simp)),
      ih (fun c hc => hu c (by simp [hc]))]
    rfl

theorem subA_id_of_no_comma {l : List Char} (h : ∀ c ∈ l, c ≠ ',') :
    subA l = l := by
  induction l with
  | nil => rfl
  | cons c cs ih =>
    by_cases hc : c = '@'
    · subst hc
      cases m : matchA cs with
      | none =>
        rw [subA_at_none m, ih (fun c hc => h c (by simp [hc]))]
      | some p =>
        obtain ⟨rep, after⟩ := p
        exact absurd (matchA_some_comma_mem m)
          (by intro hm; exact h ',' (by simp [hm]) rfl)
    · rw [subA_cons_not_at hc, ih (fun c hc => h c (by simp [hc]))]

theorem subA_head_eq (c : Char) (cs : List Char) :
    ∃ t, subA (c :: cs) = c :: t := by
  by_cases hc : c = '@'
  · subst hc
    cases m : matchA cs with
    | none => exact ⟨subA cs, subA_at_none m⟩
    | some p =>
      obtain ⟨rep, after⟩ := p
      obtain ⟨w, ws1, before, _, _, _, _, _, _, hrep⟩ := matchA_some_inv m
      refine ⟨(w ++ ws1 ++ '{' :: (fixId before ++ [','])) ++ subA after, ?_⟩
      rw [subA_at_some m, hrep]
      rfl
  · exact ⟨subA cs, subA_cons_not_at hc⟩

/-- Failure of `matchA` is stable under the scan itself: if no match
starts at a given position, none starts there after the text to the
right has been rewritten. -/
theorem matchA_none_subA {cs : List Char} (h : matchA cs = none) :
    matchA (subA cs) = none := by
  by_cases hwe : cs.takeWhile isWordChar = []
  · cases hcs : cs with
    | nil => rw [subA_nil]; exact matchA_none_of_word_empty rfl
    | cons c0 cs0 =>
      have hc0 : isWordChar c0 = false := by
        cases hx : isWordChar c0
        · rfl
        · rw [hcs] at hwe
          rw [List.takeWhile_cons_of_pos hx] at hwe
          exact absurd hwe (by simp)
      obtain ⟨t, ht⟩ := subA_head_eq c0 cs0
      rw [ht]
      apply matchA_none_of_word_empty
      rw [List.takeWhile_cons_of_neg (by simp [hc0])]
  · have hwall : ∀ c ∈ cs.takeWhile isWordChar, isWordChar c = true :=
      fun c hc => List.mem_takeWhile_imp hc
    have hdecomp : cs = cs.takeWhile isWordChar ++ cs.dropWhile isWordChar :=
      (List.takeWhile_append_dropWhile _ _).symm
    have hws1all : ∀ c ∈ (cs.dropWhile isWordChar).takeWhile isPySpace, isPySpace c = true :=
      fun c hc => List.mem_takeWhile_imp hc
    have hs1decomp : cs.dropWhile isWordChar =
        (cs.dropWhile isWordChar).takeWhile isPySpace ++
          (cs.dropWhile isWordChar).dropWhile isPySpace :=
      (List.takeWhile_append_dropWhile _ _).symm
    cases hs2 : (cs.dropWhile isWordChar).dropWhile isPySpace with
    | nil =>
      have hnc : ∀ c ∈ cs, c ≠ ',' := by
        intro c hc
        rw [hdecomp] at hc
        rcases List.mem_append.mp hc with hc | hc
        · exact word_not_comma (hwall c hc)
        · rw [hs1decomp, hs2, List.append_nil] at hc
          exact space_not_comma (hws1all c hc)
      rw [subA_id_of_no_comma hnc]
      exact h
    | cons b t =>
      have hbns : isPySpace b = false := by
        have h2 := List.head?_dropWhile_not isPySpace (cs.dropWhile isWordChar)
        rw [hs2] at h2
        exact h2
      have hbnw : (cs.dropWhile isWordChar).takeWhile isPySpace = [] →
          isWordChar b = false := by
        intro hnil
        have hseq : (cs.dropWhile isWordChar).dropWhile isPySpace = cs.dropWhile isWordChar := by
          conv_rhs => rw [hs1decomp, hnil, List.nil_append]
        have hs1bt : cs.dropWhile isWordChar = b :: t := by rw [← hseq, hs2]
        have h2 := List.head?_dropWhile_not isWordChar cs
        rw [hs1bt] at h2
        exact h2
      by_cases hb : b = '{'
      · subst hb
        cases hsp : splitFirstComma t with
        | none =>
          have hnc : ∀ c ∈ cs, c ≠ ',' := by
            intro c hc
            rw [hdecomp] at hc
            rcases List.mem_append.mp hc with hc | hc
            · exact word_not_comma (hwall c hc)
            · rw [hs1decomp, hs2] at hc
              rcases List.mem_append.mp hc with hc | hc
              · exact space_not_comma (hws1all c hc)
              · rcases List.mem_cons.mp hc with rfl | hc
                · decide
                · exact splitFirstComma_none_inv hsp c hc
          rw [subA_id_of_no_comma hnc]
          exact h
        | some p =>
          obtain ⟨before, after⟩ := p
          obtain ⟨hteq, hbnc⟩ := splitFirstComma_eq_some hsp
          cases hbe : before with
          | cons d dd =>
            exfalso
            have hbne : before ≠ [] := by rw [hbe]; simp
            have hm := @matchA_parse _ _ _ after hwe hwall hws1all hbne hbnc
            have hseq2 : cs = cs.takeWhile isWordChar ++
                ((cs.dropWhile isWordChar).takeWhile isPySpace ++
                  '{' :: (before ++ ',' :: after)) := by
              rw [← hteq, ← hs2, ← hs1decomp, ← hdecomp]
            rw [← hseq2] at hm
            rw [hm] at h
            exact absurd h (by simp)
          | nil =>
            subst hbe
            simp only [List.nil_append] at hteq
            have hcseq : cs = (cs.takeWhile isWordChar ++
                (cs.dropWhile isWordChar).takeWhile isPySpace ++ ['{', ',']) ++ after := by
              rw [hdecomp]
              conv_lhs => rw [hs1decomp, hs2, hteq]
              simp [List.append_assoc]
            have hnoat : ∀ c ∈ cs.takeWhile isWordChar ++
                (cs.dropWhile isWordChar).takeWhile isPySpace ++ ['{', ','], c ≠ '@' := by
              intro c hc
              rcases List.mem_append.mp hc with hc | hc
              · rcases List.mem_append.mp hc with hc | hc
                · exact word_not_at (hwall c hc)
                · exact space_not_at (hws1all c hc)
              · rcases List.mem_cons.mp hc with rfl | hc
                · decide
                · rcases List.mem_cons.mp hc with rfl | hc
                  · decide
                  · simp at hc
            rw [hcseq, subA_append_no_at hnoat]
            have hshape2 : (cs.takeWhile isWordChar ++
                (cs.dropWhile isWordChar).takeWhile isPySpace ++ ['{', ',']) ++ subA after =
                cs.takeWhile isWordChar ++
                  ((cs.dropWhile isWordChar).takeWhile isPySpace ++
                    '{' :: ',' :: subA after) := by
              simp [List.append_assoc]
            rw [hshape2]
            exact matchA_brace_empty hwall hws1all
      · have hnoat2 : ∀ c ∈ cs.takeWhile isWordChar ++
            (cs.dropWhile isWordChar).takeWhile isPySpace, c ≠ '@' := by
          intro c hc
          rcases List.mem_append.mp hc with hc | hc
          · exact word_not_at (hwall c hc)
          · exact space_not_at (hws1all c hc)
        have hcseq : cs = (cs.takeWhile isWordChar ++
            (cs.dropWhile isWordChar).takeWhile isPySpace) ++ (b :: t) := by
          rw [hdecomp]
          conv_lhs => rw [hs1decomp, hs2]
          simp [List.append_assoc]
        obtain ⟨t', ht'⟩ := subA_head_eq b t
        rw [hcseq, subA_append_no_at hnoat2, ht']
        have hshape2 : (cs.takeWhile isWordChar ++
            (cs.dropWhile isWordChar).takeWhile isPySpace) ++ (b :: t') =
            cs.takeWhile isWordChar ++
              ((cs.dropWhile isWordChar).takeWhile isPySpace ++ (b :: t')) := by
          simp [List.append_assoc]
        rw [hshape2]
        refine matchA_stop_none hwall hws1all ?_ ?_ ?_
        · intro hnil c hc
          simp only [List.head?_cons, Option.some.injEq] at hc
          rw [← hc]
          exact hbnw hnil
        · intro c hc
          simp only [List.head?_cons, Option.some.injEq] at hc
          rw [← hc]
          exact hbns
        · intro c hc
          simp only [List.head?_cons, Option.some.injEq] at hc
          rw [← hc]
          exact hb

/-- The whitespace-ID scan is idempotent (worker, by induction on a
length bound). -/
theorem subA_idem_aux : ∀ (n : Nat) (l : List Char), l.length ≤ n →
    subA (subA l) = subA l := by
  intro n
  induction n with
  | zero =>
    intro l hl
    have : l = [] := List.length_eq_zero.mp (Nat.le_zero.mp hl)
    subst this
    rfl
  | succ n ih =>
    intro l hl
    cases l with
    | nil => rfl
    | cons c cs =>
      simp only [List.length_cons, Nat.add_le_add_iff_right] at hl
      by_cases hc : c = '@'
      · subst hc
        cases m : matchA cs with
        | none =>
          rw [subA_at_none m, subA_at_none (matchA_none_subA m)]
          rw [ih cs hl]
        | some p =>
          obtain ⟨rep, after⟩ := p
          rw [subA_at_some m]
          obtain ⟨w, ws1, before, hwne, hwall, hws1, hbne, hbnc, hseq, hrep⟩ :=
            matchA_some_inv m
          have hshape : ∀ x : List Char, rep ++ x =
              '@' :: (w ++ (ws1 ++ '{' :: (fixId before ++ ',' :: x))) := by
            intro x
            rw [hrep]
            simp [List.append_assoc]
          rw [hshape]
          rw [subA_at_some (matchA_parse hwne hwall hws1
            (fixId_ne_nil hbne) (fixId_comma_free hbnc))]
          rw [fixId_idem]
          rw [show ('@' : Char) :: (w ++ ws1 ++ '{' :: (fixId before ++ [','])) = rep from hrep.symm]
          rw [← hshape]
          congr 1
          have hlt := matchA_after_lt m
          exact ih after (by omega)
      · rw [subA_cons_not_at hc, subA_cons_not_at hc, ih cs hl]

/-- The whitespace-ID scan is idempotent. -/
theorem subA_idem (l : List Char) : subA (subA l) = subA l :=
  subA_idem_aux l.length l Nat.le.refl

theorem trail_decomp_last {p : Char → Bool} {x w : List Char}
    (hx : ∀ c, x.getLast? = some c → p c = false) (hw : ∀ c ∈ w, p c = true) :
    dropTrail p (x ++ w) = x ∧ takeTrail p (x ++ w) = w := by
  have hwrev : ∀ c ∈ w.reverse, p c = true := fun c hc => hw c (List.mem_reverse.mp hc)
  have hdrop : (x.reverse).dropWhile p = x.reverse := by
    cases hx2 : x.reverse with
    | nil => rfl
    | cons a as =>
      have ha : x.getLast? = some a := by rw [← List.head?_reverse, hx2]; rfl
      rw [List.dropWhile_cons_of_neg (by simp [hx a ha])]
  have htake : (x.reverse).takeWhile p = [] := by
    cases hx2 : x.reverse with
    | nil => rfl
    | cons a as =>
      have ha : x.getLast? = some a := by rw [← List.head?_reverse, hx2]; rfl
      rw [List.takeWhile_cons_of_neg (by simp [hx a ha])]
  constructor
  · unfold dropTrail
    rw [(by simp : (x ++ w).reverse = w.reverse ++ x.reverse),
      dropWhile_append_all hwrev, hdrop, List.reverse_reverse]
  · unfold takeTrail
    rw [(by simp : (x ++ w).reverse = w.reverse ++ x.reverse),
      takeWhile_append_all hwrev, htake, List.append_nil, List.reverse_reverse]

/-- The `fixId` normal form on a decomposed identifier slot: leading
and trailing whitespace is kept in place, and the core identifier is
collapsed iff it contains a space character. -/
theorem fixId_structured {wsa id wsb : List Char}
    (hwsa : ∀ c ∈ wsa, isPySpace c = true)
    (hid : id ≠ [])
    (hidh : isPySpace (id.headD ' ') = false)
    (hidl : isPySpace (id.getLastD ' ') = false)
    (hwsb : ∀ c ∈ wsb, isPySpace c = true) :
    fixId (wsa ++ (id ++ wsb)) =
      wsa ++ ((if id.contains ' ' = true then collapseWs id else id) ++ wsb) := by
  obtain ⟨c0, id0, hid0⟩ : ∃ c0 id0, id = c0 :: id0 := by
    cases id with
    | nil => exact absurd rfl hid
    | cons a as => exact ⟨a, as, rfl⟩
  have hc0 : isPySpace c0 = false := by
    rw [hid0] at hidh
    exact hidh
  have hidl' : ∀ c, id.getLast? = some c → isPySpace c = false := by
    intro c hc
    have h2 : id.getLastD ' ' = c := by
      rw [List.getLastD_eq_getLast?, hc]
      rfl
    rw [← h2]
    exact hidl
  have hidh' : ∀ c, id.head? = some c → isPySpace c = false := by
    intro c hc
    rw [hid0] at hc
    simp only [List.head?_cons, Option.some.injEq] at hc
    rw [← hc]
    exact hc0
  have hdrop : (wsa ++ (id ++ wsb)).dropWhile isPySpace = id ++ wsb := by
    rw [dropWhile_append_all hwsa, hid0, List.cons_append,
      List.dropWhile_cons_of_neg (by simp [hc0]), ← List.cons_append, ← hid0]
  have htake : (wsa ++ (id ++ wsb)).takeWhile isPySpace = wsa := by
    rw [hid0, List.cons_append]
    exact takeWhile_append_stop hwsa hc0 (id0 ++ wsb)
  have htrail := trail_decomp_last hidl' hwsb
  have hstrip : pyStrip id = id := pyStrip_eq_self hidh' hidl'
  have hne : ¬ ((id ++ wsb).isEmpty = true) := by
    rw [hid0]
    simp
  simp only [fixId]
  rw [hdrop, htrail.1, htrail.2, if_neg hne, htake, hstrip]
  by_cases hct : id.contains ' ' = true
  · rw [if_neg (by rw [hct]; simp), if_pos hct]
    have hne2 : ¬ (id.isEmpty = true) := by rw [hid0]; simp
    rw [if_neg hne2]
    simp [List.append_assoc]
  · have hcf : id.contains ' ' = false := by
      cases h2 : id.contains ' '
      · rfl
      · exact absurd h2 hct
    rw [if_pos hcf, if_neg hct]

/-- One well-formed entry at the front of the text: the scan rewrites
its identifier slot with `fixId` and processes the rest of the document
independently. -/
theorem subA_entry {w ws1 before rest : List Char}
    (hw : w ≠ []) (hwall : ∀ c ∈ w, isWordChar c = true)
    (hws1 : ∀ c ∈ ws1, isPySpace c = true)
    (hbe : before ≠ []) (hbc : ∀ c ∈ before, c ≠ ',') :
    subA ('@' :: (w ++ (ws1 ++ '{' :: (before ++ ',' :: rest)))) =
      '@' :: (w ++ (ws1 ++ '{' :: (fixId before ++ ',' :: subA rest))) := by
  rw [subA_at_some (matchA_parse hw hwall hws1 hbe hbc)]
  simp [List.append_assoc]

/-- The whitespace-ID scan over a document of well-formed entries acts
entrywise in place, preserving number and order of entries. -/
theorem subA_renderListA {es : List RawEntryA} (h : ∀ e ∈ es, wfA e) :
    subA (renderListA es) = renderListA (es.map normA) := by
  induction es with
  | nil => rfl
  | cons e tl ih =>
    obtain ⟨hty, htyw, hid, hidc, hbody⟩ := h e (by simp)
    have ih' := ih (fun e' he' => h e' (by simp [he']))
    have hre : renderListA (e :: tl) =
        '@' :: (e.ty ++ ([] ++ '{' :: (e.id ++ ',' :: (e.body ++ renderListA tl)))) := by
      simp [renderListA, renderA, List.append_assoc]
    rw [hre, subA_entry hty htyw (by simp) hid hidc,
      subA_append_no_at hbody, ih']
    simp [renderListA, renderA, normA, List.append_assoc]

/-- C3, counterexample.  The claim says every identifier containing one
or more whitespace characters is rewritten; but the source checks
`' ' not in raw_id`, so an identifier containing a tab (whitespace) and
no space passes through unchanged, while the claim requires
`Dal_Maso2025`. -/
theorem c3_counterexample :
    corrigir_espacos_ids_raw "@article\x7bDal\tMaso2025, title=\x7bX\x7d\x7d" =
        "@article\x7bDal\tMaso2025, title=\x7bX\x7d\x7d" ∧
      isPySpace '\t' = true ∧
      "@article\x7bDal\tMaso2025, title=\x7bX\x7d\x7d" ≠
        "@article\x7bDal_Maso2025, title=\x7bX\x7d\x7d" := by
  exact ⟨by decide, by decide, by decide⟩

theorem dropWhile_all_true {p : Char → Bool} : ∀ {l : List Char},
    (∀ c ∈ l, p c = true) → l.dropWhile p = [] := by
  intro l
  induction l with
  | nil =>
    intro _
    rfl
  | cons a as ih =>
    intro h
    rw [List.dropWhile_cons_of_pos (h a (by simp))]
    exact ih (fun c hc => h c (by simp [hc]))

theorem fixId_all_ws {slot : List Char} (h : ∀ c ∈ slot, isPySpace c = true) :
    fixId slot = slot := by
  have hd : slot.dropWhile isPySpace = [] := dropWhile_all_true h
  simp only [fixId, hd]
  simp

/-- C3 (amended): the normalizer scans left to right; at every
`@<word><ws>\x7b` heading it rewrites the identifier slot — the text
strictly between the opening brace and the first following comma — in
place (to `fixId` of the slot) and resumes after the comma, leaving
every other byte unchanged (first conjunct; the recursive `subA` is the
scan of the remaining text).  The slot's leading and trailing
whitespace stays in place: when the slot's core — the slot minus that
edge whitespace — contains at least one space character, each
whitespace run inside the core is collapsed to a single underscore,
while a core without a space character, even one containing tabs or
other whitespace, passes through unchanged (second conjunct); a
whitespace-only slot also passes through unchanged, left for the
empty-ID pass (third conjunct). -/
theorem c3_ws_normalizer :
    (∀ (w ws1 slot rest : List Char), w ≠ [] → (∀ c ∈ w, isWordChar c = true) →
      (∀ c ∈ ws1, isPySpace c = true) → (∀ c ∈ slot, c ≠ ',') →
      corrigir_espacos_ids_raw ⟨'@' :: (w ++ (ws1 ++ '{' :: (slot ++ ',' :: rest)))⟩ =
        ⟨'@' :: (w ++ (ws1 ++ '{' :: (fixId slot ++ ',' :: subA rest)))⟩) ∧
    (∀ wsa core wsb : List Char, (∀ c ∈ wsa, isPySpace c = true) →
      (∀ c ∈ wsb, isPySpace c = true) → core ≠ [] →
      isPySpace (core.headD ' ') = false → isPySpace (core.getLastD ' ') = false →
      fixId (wsa ++ (core ++ wsb)) =
        wsa ++ ((if core.contains ' ' = true then collapseWs core else core) ++ wsb)) ∧
    (∀ slot : List Char, (∀ c ∈ slot, isPySpace c = true) → fixId slot = slot) := by
  refine ⟨?_, ?_, ?_⟩
  · intro w ws1 slot rest hw hwall hws1 hbc
    by_cases hslot : slot = []
    · subst hslot
      have hnoat : ∀ c ∈ w ++ (ws1 ++ ['{', ',']), c ≠ '@' := by
        intro c hc
        rcases List.mem_append.mp hc with hc | hc
        · exact word_not_at (hwall c hc)
        · rcases List.mem_append.mp hc with hc | hc
          · exact space_not_at (hws1 c hc)
          · simp only [List.mem_cons, List.not_mem_nil, or_false] at hc
            rcases hc with rfl | rfl
            · decide
            · decide
      have hdata : subA ('@' :: (w ++ (ws1 ++ '{' :: ([] ++ ',' :: rest)))) =
          '@' :: (w ++ (ws1 ++ '{' :: (fixId [] ++ ',' :: subA rest))) := by
        rw [List.nil_append, subA_at_none (matchA_brace_empty hwall hws1)]
        rw [show w ++ (ws1 ++ '{' :: ',' :: rest) =
          (w ++ (ws1 ++ ['{', ','])) ++ rest from by simp]
        rw [subA_append_no_at hnoat rest]
        simp [fixId, List.append_assoc]
      exact congrArg String.mk hdata
    · exact congrArg String.mk (subA_entry hw hwall hws1 hslot hbc)
  · intro wsa core wsb hwsa hwsb hne hh hl
    exact fixId_structured hwsa hne hh hl hwsb
  · intro slot h
    exact fixId_all_ws h

/-- C3 witness: the spec's whitespace scenario with edge whitespace
added to the slot, through the amended theorem's first conjunct — the
core is collapsed to `Dal_Maso2025`, the slot's edge spaces stay in
place, the title is unchanged. -/
theorem c3_ws_normalizer_witness :
    corrigir_espacos_ids_raw "@article\x7b Dal Maso2025 , title=\x7bX\x7d\x7d" =
      "@article\x7b Dal_Maso2025 , title=\x7bX\x7d\x7d" := by
  have h := c3_ws_normalizer.1 "article".data [] " Dal Maso2025 ".data
    " title=\x7bX\x7d\x7d".data (by decide) (by decide) (by decide) (by decide)
  have h1 : ("@article\x7b Dal Maso2025 , title=\x7bX\x7d\x7d" : String) =
      ⟨'@' :: ("article".data ++ ([] ++ '{' :: (" Dal Maso2025 ".data ++
        ',' :: " title=\x7bX\x7d\x7d".data)))⟩ := by decide
  have h2 : (⟨'@' :: ("article".data ++ ([] ++ '{' :: (fixId " Dal Maso2025 ".data ++
      ',' :: subA " title=\x7bX\x7d\x7d".data)))⟩ : String) =
      "@article\x7b Dal_Maso2025 , title=\x7bX\x7d\x7d" := by decide
  rw [h1, h]
  exact h2

/-- C8: the whitespace-ID normalizer is idempotent on every input, and
on a document of well-formed entries it acts entrywise in place, so the
order (and number) of entries is preserved. -/
theorem c8_idempotent_order :
    (∀ s : String, corrigir_espacos_ids_raw (corrigir_espacos_ids_raw s) =
        corrigir_espacos_ids_raw s) ∧
      ∀ es : List RawEntryA, (∀ e ∈ es, wfA e) →
        corrigir_espacos_ids_raw ⟨renderListA es⟩ = ⟨renderListA (es.map normA)⟩ := by
  constructor
  · intro s
    exact congrArg String.mk (subA_idem s.data)
  · intro es h
    exact congrArg String.mk (subA_renderListA h)

/-- C8 witness: idempotence evaluated on a two-entry document, and the
order-preserving entrywise action on the same document. -/
theorem c8_idempotent_order_witness :
    (corrigir_espacos_ids_raw (corrigir_espacos_ids_raw "@a\x7bx y,b\x7d\n@c\x7bz,t\x7d") =
        corrigir_espacos_ids_raw "@a\x7bx y,b\x7d\n@c\x7bz,t\x7d") ∧
      corrigir_espacos_ids_raw
          ⟨renderListA [⟨"a".data, "x y".data, "b\x7d\n".data⟩, ⟨"c".data, "z".data, "t\x7d".data⟩]⟩ =
        ⟨renderListA ([⟨"a".data, "x y".data, "b\x7d\n".data⟩, ⟨"c".data, "z".data, "t\x7d".data⟩].map normA)⟩ :=
  ⟨c8_idempotent_order.1 _, c8_idempotent_order.2 _ (by decide)⟩

/-! Properties of the structured fix loop. -/

theorem fixLoop_forall₂ : ∀ (es : List BibEntry) (ids : List String) (idx n : Nat),
    List.Forall₂ (fun e e' => e'.ENTRYTYPE = e.ENTRYTYPE ∧ e'.fields = e.fields ∧
      (pyStripS e.ID ≠ "" → e' = e)) es (fixLoop es ids idx n).1 := by
  intro es
  induction es with
  | nil => intro ids idx n; simp [fixLoop]
  | cons e tl ih =>
    intro ids idx n
    by_cases hcond : e.ID = "" ∨ pyStripS e.ID = ""
    · simp only [fixLoop, if_pos hcond]
      refine List.Forall₂.cons ⟨rfl, rfl, ?_⟩ (ih _ _ _)
      intro hne
      rcases hcond with h | h
      · exact absurd (by rw [h]; rfl) hne
      · exact absurd h hne
    · simp only [fixLoop, if_neg hcond]
      exact List.Forall₂.cons ⟨rfl, rfl, fun _ => rfl⟩ (ih _ _ _)

theorem fixLoop_counts : ∀ (es : List BibEntry) (ids : List String) (idx n : Nat),
    (fixLoop es ids idx n).2.2 =
        n + (es.filter (fun e => pyStripS e.ID == "")).length ∧
      (fixLoop es ids idx n).1.length = es.length := by
  intro es
  induction es with
  | nil => intro ids idx n; simp [fixLoop]
  | cons e tl ih =>
    intro ids idx n
    by_cases hcond : e.ID = "" ∨ pyStripS e.ID = ""
    · have hstrip : pyStripS e.ID = "" := by
        rcases hcond with h | h
        · rw [h]; rfl
        · exact h
      have hpred : (pyStripS e.ID == "") = true := by
        simp [hstrip]
      simp only [fixLoop, if_pos hcond, List.filter_cons, hpred, if_true]
      constructor
      · rw [(ih _ _ _).1]
        simp only [List.length_cons]
        omega
      · simp only [List.length_cons, (ih _ _ _).2]
    · have hstrip : ¬ pyStripS e.ID = "" := fun h => hcond (Or.inr h)
      have hpred : (pyStripS e.ID == "") = false := by
        simp [hstrip]
      simp only [fixLoop, if_neg hcond, List.filter_cons, hpred]
      constructor
      · rw [(ih _ _ _).1]
        simp
      · simp only [List.length_cons, (ih _ _ _).2]

/-- C2: the structured fixer leaves every entry whose identifier is
non-empty after trimming entirely unmodified, and on the entries it
does touch it writes only the identifier: the type tag and the field
map are preserved for every entry. -/
theorem c2_frame (entries : List BibEntry) :
    List.Forall₂ (fun e e' => e'.ENTRYTYPE = e.ENTRYTYPE ∧ e'.fields = e.fields ∧
      (pyStripS e.ID ≠ "" → e' = e)) entries (corrigirEntries entries).1 :=
  fixLoop_forall₂ entries (existingIds entries) 1 0

/-- C2 witness: the frame property evaluated on a two-entry document
(one kept verbatim, one with only the identifier rewritten). -/
theorem c2_frame_witness :
    List.Forall₂ (fun e e' => e'.ENTRYTYPE = e.ENTRYTYPE ∧ e'.fields = e.fields ∧
        (pyStripS e.ID ≠ "" → e' = e))
      [⟨"article", "Keep1", [("title", "T")]⟩, ⟨"article", " ", [("year", "2020")]⟩]
      (corrigirEntries
        [⟨"article", "Keep1", [("title", "T")]⟩, ⟨"article", " ", [("year", "2020")]⟩]).1 :=
  c2_frame [⟨"article", "Keep1", [("title", "T")]⟩, ⟨"article", " ", [("year", "2020")]⟩]

/-- C10: the triple returned by the structured fixer satisfies
`total_entries` = number of parsed entries, `corrected_entries` =
number of parsed entries whose identifier is missing, empty or
whitespace-only, and `0 ≤ corrected_entries ≤ total_entries`. -/
theorem c10_triple (conteudo : String) :
    (corrigir_bibtex conteudo).2.1 = (parseBib conteudo).length ∧
      (corrigir_bibtex conteudo).2.2 =
        ((parseBib conteudo).filter (fun e => pyStripS e.ID == "")).length ∧
      (corrigir_bibtex conteudo).2.2 ≤ (corrigir_bibtex conteudo).2.1 := by
  refine ⟨rfl, ?_, ?_⟩
  · have h := (fixLoop_counts (parseBib conteudo)
      (existingIds (parseBib conteudo)) 1 0).1
    simpa [corrigir_bibtex, corrigirEntries] using h
  · have h := (fixLoop_counts (parseBib conteudo)
      (existingIds (parseBib conteudo)) 1 0).1
    have h2 : (corrigir_bibtex conteudo).2.2 =
        ((parseBib conteudo).filter (fun e => pyStripS e.ID == "")).length := by
      simpa [corrigir_bibtex, corrigirEntries] using h
    rw [h2]
    show _ ≤ (corrigir_bibtex conteudo).2.1
    calc ((parseBib conteudo).filter (fun e => pyStripS e.ID == "")).length
        ≤ (parseBib conteudo).length := List.length_filter_le _ _
      _ = (corrigir_bibtex conteudo).2.1 := rfl

/-- C5, counterexample: the helper appends a whitespace-only year (it
is truthy in Python), although the claim requires the bare token when
the year is empty after trimming. -/
theorem c5_counterexample :
    gerar_id_titulo_ano "Deep" " " = "Deep " ∧ pyStripS " " = "" ∧
      ("Deep " : String) ≠ "Deep" :=
  ⟨by decide, by decide, by decide⟩

/-- C5 (amended): the helper implements the spec's synthesis algorithm
with the year appended whenever it is a non-empty string (not only when
it trims non-empty; both callers pass stripped years, so the difference
is invisible from the pipeline); and the structured pass maps entries
with empty identifier and no title and no year to exactly `Entry`,
disambiguated to `Entry_2` on collision with a prior fallback. -/
theorem c5_id_synthesis :
    (∀ titulo ano : String, gerar_id_titulo_ano titulo ano = specIdSynth titulo ano) ∧
      (corrigirEntries [⟨"article", "", []⟩, ⟨"article", "", []⟩]).1.map BibEntry.ID =
        ["Entry", "Entry_2"] := by
  constructor
  · intro t a
    unfold gerar_id_titulo_ano gerarIdTituloAnoL specIdSynth
    simp only [List.isEmpty_iff]
    by_cases ha : a.data = []
    · simp [ha]
    · simp [ha]
  · decide

/-- C6, counterexample: on a two-entry document with one empty
identifier (total 2, corrected 1), the output text does not begin with
the claimed two-line comment; it begins with the four-line `comentario`
block, whose only digit is the corrected count — the total count 2
appears nowhere in it. -/
theorem c6_counterexample :
    (corrigir_bibtex_try (Except.ok [⟨"article", "",
          [("title", "Deep Learning"), ("year", "2020")]⟩,
        ⟨"article", "K1", []⟩]) []).2.1 = 2 ∧
      (corrigir_bibtex_try (Except.ok [⟨"article", "",
          [("title", "Deep Learning"), ("year", "2020")]⟩,
        ⟨"article", "K1", []⟩]) []).2.2 = 1 ∧
      isPrefixL
        "% Corrigido automaticamente: 1 de 2 entradas sem ID.\n% Gerado por BibTeX ID Fixer (Flask).\n".data
        (corrigir_bibtex_try (Except.ok [⟨"article", "",
            [("title", "Deep Learning"), ("year", "2020")]⟩,
          ⟨"article", "K1", []⟩]) []).1.data = false ∧
      isPrefixL (comentario 1).data
        (corrigir_bibtex_try (Except.ok [⟨"article", "",
            [("title", "Deep Learning"), ("year", "2020")]⟩,
          ⟨"article", "K1", []⟩]) []).1.data = true ∧
      (comentario 1).data.filter Char.isDigit = ['1'] :=
  ⟨by decide, by decide, by decide, by decide, by decide⟩

theorem isPrefixL_append (u v : List Char) : isPrefixL u (u ++ v) = true := by
  induction u with
  | nil => rfl
  | cons a as ih => simp [isPrefixL, ih]

/-- C6 (amended): for every input, the corrected output text begins
with the four-line summary block of `comentario` (values substituted),
which contains the corrected count and the tool identification — but
not the total count. -/
theorem c6_summary_comment (conteudo : String) :
    isPrefixL (comentario (corrigir_bibtex conteudo).2.2).data
        (corrigir_bibtex conteudo).1.data = true ∧
      (toString (corrigir_bibtex conteudo).2.2).data <:+:
        (comentario (corrigir_bibtex conteudo).2.2).data ∧
      "BibTeX ID Fixer".data <:+: (comentario (corrigir_bibtex conteudo).2.2).data := by
  refine ⟨?_, ?_, ?_⟩
  · show isPrefixL (comentario (corrigir_bibtex conteudo).2.2).data
      ((comentario (corrigirEntries (parseBib conteudo)).2.2 ++
        dumps (corrigirEntries (parseBib conteudo)).1).data) = true
    exact isPrefixL_append _ _
  · exact ⟨"% Processamento completo.\n% IDs vazios preenchidos: ".data,
      ("\n% IDs com espaços ajustados previamente.\n% Gerado por BibTeX ID Fixer (Flask).\n\n").data,
      rfl⟩
  · exact ⟨"% Processamento completo.\n% IDs vazios preenchidos: ".data ++
        (toString (corrigir_bibtex conteudo).2.2).data ++
        "\n% IDs com espaços ajustados previamente.\n% Gerado por ".data,
      " (Flask).\n\n".data, by
        show _ ++ "BibTeX ID Fixer".data ++ _ = _
        simp [comentario, List.append_assoc]⟩

/-- C7: the try/except around the structured parse never lets an
exception past the boundary: for every outcome of the primary parse and
every fallback entry list the function is total and returns a triple
with `corrected ≤ total`; on a primary error it behaves exactly as if
the fallback parse result had been the primary one, and an empty
fallback still yields the valid triple with `total = 0`. -/
theorem c7_no_raise (primary : Except Unit (List BibEntry))
    (fallback : List BibEntry) :
    (corrigir_bibtex_try primary fallback).2.2 ≤
        (corrigir_bibtex_try primary fallback).2.1 ∧
      (∀ e : Unit, primary = Except.error e →
        corrigir_bibtex_try primary fallback =
          corrigir_bibtex_try (Except.ok fallback) fallback) ∧
      (corrigir_bibtex_try (Except.error ()) []).2.1 = 0 ∧
      (corrigir_bibtex_try (Except.error ()) []).2.2 = 0 := by
  refine ⟨?_, ?_, rfl, rfl⟩
  · cases primary with
    | ok es =>
      show (corrigirEntries es).2.2 ≤ es.length
      have h := (fixLoop_counts es (existingIds es) 1 0).1
      have h2 : (corrigirEntries es).2.2 =
          (es.filter (fun e => pyStripS e.ID == "")).length := by
        simpa [corrigirEntries] using h
      rw [h2]
      exact List.length_filter_le _ _
    | error e =>
      show (corrigirEntries fallback).2.2 ≤ fallback.length
      have h := (fixLoop_counts fallback (existingIds fallback) 1 0).1
      have h2 : (corrigirEntries fallback).2.2 =
          (fallback.filter (fun e => pyStripS e.ID == "")).length := by
        simpa [corrigirEntries] using h
      rw [h2]
      exact List.length_filter_le _ _
  · intro e he
    rw [he]
    rfl

/-- C7 witness: a failing primary parse with a concrete fallback. -/
theorem c7_no_raise_witness :
    corrigir_bibtex_try (Except.error ()) [⟨"article", "", []⟩] =
      corrigir_bibtex_try (Except.ok [⟨"article", "", []⟩]) [⟨"article", "", []⟩] :=
  (c7_no_raise (Except.error ()) [⟨"article", "", []⟩]).2.1 () rfl

/-! The empty-ID scanner. -/

theorem length_dropWhile_le' (p : Char → Bool) (l : List Char) :
    (l.dropWhile p).length ≤ l.length :=
  (List.dropWhile_sublist _).length_le

theorem findClose_le : ∀ {l body r : List Char},
    findClose l = some (body, r) → r.length ≤ l.length := by
  intro l
  induction l with
  | nil => intro body r h; simp [findClose] at h
  | cons c cs ih =>
    intro body r h
    simp only [findClose] at h
    split at h
    · simp only [Option.some.injEq, Prod.mk.injEq] at h
      rw [← h.2]
      calc (cs.dropWhile isPySpace).length ≤ cs.length := length_dropWhile_le' _ _
        _ ≤ (c :: cs).length := by simp
    · cases hf : findClose cs with
      | none => rw [hf] at h; simp at h
      | some p =>
        obtain ⟨b', r'⟩ := p
        rw [hf] at h
        simp only [Option.some.injEq, Prod.mk.injEq] at h
        rw [← h.2]
        calc r'.length ≤ cs.length := ih hf
          _ ≤ (c :: cs).length := by simp

theorem findClose_append {body tail : List Char} (hb : ∀ c ∈ body, c ≠ '}')
    (hok : okLook (tail.dropWhile isPySpace) = true) :
    findClose (body ++ '}' :: tail) = some (body, tail.dropWhile isPySpace) := by
  induction body with
  | nil =>
    simp only [List.nil_append, findClose]
    rw [if_pos (by simp [hok])]
  | cons c bs ih =>
    have hc : c ≠ '}' := hb c (by simp)
    have ih' := ih (fun x hx => hb x (by simp [hx]))
    simp only [List.cons_append, findClose]
    rw [if_neg (by simp [hc])]
    simp only [List.append_eq, ih']

theorem matchB_after_lt {s rep after : List Char}
    (h : matchB s = some (rep, after)) : after.length < s.length := by
  simp only [matchB] at h
  split at h
  · simp at h
  · split at h
    · rename_i t heq2
      split at h
      · rename_i t3 heq3
        cases hf : findClose t3 with
        | none => rw [hf] at h; simp at h
        | some p =>
          obtain ⟨body, r⟩ := p
          rw [hf] at h
          simp only [Option.some.injEq, Prod.mk.injEq] at h
          rw [← h.2]
          have h1 : r.length ≤ t3.length := findClose_le hf
          have h2 : (',' :: t3).length ≤ t.length := by
            rw [← heq3]
            exact length_dropWhile_le' _ _
          have h3 : ('{' :: t).length ≤ s.length := by
            rw [← heq2]
            calc (((s.dropWhile isWordChar).dropWhile isPySpace)).length
                ≤ (s.dropWhile isWordChar).length := length_dropWhile_le' _ _
              _ ≤ s.length := length_dropWhile_le' _ _
          simp only [List.length_cons] at h2 h3
          omega
      · simp at h
    · simp at h

theorem subBAux_congr : ∀ (f1 f2 : Nat) (l : List Char),
    l.length ≤ f1 → l.length ≤ f2 → subBAux f1 l = subBAux f2 l := by
  intro f1
  induction f1 with
  | zero =>
    intro f2 l h1 _
    have hl : l = [] := List.length_eq_zero.mp (Nat.le_zero.mp h1)
    subst hl
    cases f2 <;> rfl
  | succ f ih =>
    intro f2 l h1 h2
    cases l with
    | nil => cases f2 <;> rfl
    | cons c cs =>
      cases f2 with
      | zero => simp at h2
      | succ f2' =>
        simp only [List.length_cons, Nat.add_le_add_iff_right] at h1 h2
        show subBAux (f + 1) (c :: cs) = subBAux (f2' + 1) (c :: cs)
        simp only [subBAux]
        by_cases hc : c = '@'
        · simp only [if_pos hc]
          cases m : matchB cs with
          | none =>
            show c :: subBAux f cs = c :: subBAux f2' cs
            rw [ih f2' cs h1 h2]
          | some p =>
            obtain ⟨rep, after⟩ := p
            have hlt := matchB_after_lt m
            show rep ++ subBAux f after = rep ++ subBAux f2' after
            rw [ih f2' after (by omega) (by omega)]
        · simp only [if_neg hc]
          rw [ih f2' cs h1 h2]

theorem subB_cons_not_at {c : Char} {cs : List Char} (h : ¬ c = '@') :
    subB (c :: cs) = c :: subB cs := by
  show subBAux (c :: cs).length (c :: cs) = c :: subBAux cs.length cs
  simp only [List.length_cons, subBAux, if_neg h]

theorem subB_at_none {cs : List Char} (h : matchB cs = none) :
    subB ('@' :: cs) = '@' :: subB cs := by
  show subBAux ('@' :: cs).length ('@' :: cs) = '@' :: subBAux cs.length cs
  simp only [List.length_cons, subBAux, if_pos rfl, if_true, h]

theorem subB_at_some {cs rep after : List Char}
    (h : matchB cs = some (rep, after)) :
    subB ('@' :: cs) = rep ++ subB after := by
  show subBAux ('@' :: cs).length ('@' :: cs) = rep ++ subBAux after.length after
  simp only [List.length_cons, subBAux, if_pos rfl, if_true, h]
  congr 1
  exact subBAux_congr cs.length after.length after
    (Nat.le_of_lt (matchB_after_lt h)) Nat.le.refl

theorem subB_append_no_at {u : List Char} (hu : ∀ c ∈ u, c ≠ '@')
    (v : List Char) : subB (u ++ v) = u ++ subB v := by
  induction u with
  | nil => simp
  | cons a as ih =>
    rw [List.cons_append, subB_cons_not_at (hu a (by simp)),
      ih (fun c hc => hu c (by simp [hc]))]
    rfl

theorem okLook_cons_ne_at {c : Char} (h : c ≠ '@') (l : List Char) :
    okLook (c :: l) = false := by
  cases l with
  | nil => rfl
  | cons d ds => simp [okLook, h]

theorem dropWhile_append_head_stop {p : Char → Bool} {v : List Char}
    (hv : ∀ c, v.head? = some c → p c = false) :
    ∀ (u : List Char), (u ++ v).dropWhile p = u.dropWhile p ++ v := by
  intro u
  induction u with
  | nil =>
    simp only [List.nil_append, List.dropWhile_nil]
    cases hx : v with
    | nil => rfl
    | cons a vs =>
      exact List.dropWhile_cons_of_neg (by simp [hv a (by rw [hx]; rfl)])
  | cons a u' ih =>
    by_cases ha : p a = true
    · rw [List.cons_append, List.dropWhile_cons_of_pos ha,
        List.dropWhile_cons_of_pos ha, ih]
    · rw [List.cons_append, List.dropWhile_cons_of_neg (by simp [ha]),
        List.dropWhile_cons_of_neg (by simp [ha]), List.cons_append]

theorem noAtAfterBrace_tail {c : Char} {rest : List Char}
    (h : noAtAfterBrace (c :: rest) = true) : noAtAfterBrace rest = true := by
  by_cases hc : c = '}'
  · subst hc
    simp only [noAtAfterBrace, if_pos rfl, if_true, Bool.and_eq_true] at h
    exact h.2
  · simpa [noAtAfterBrace, hc] using h

theorem noAtAfterBrace_head {rest : List Char}
    (h : noAtAfterBrace ('}' :: rest) = true) :
    ∀ c, (rest.dropWhile isPySpace).head? = some c → c ≠ '@' := by
  simp only [noAtAfterBrace, if_pos rfl, if_true, Bool.and_eq_true] at h
  intro c hc
  have h1 := h.1
  cases hx : rest.dropWhile isPySpace with
  | nil =>
    rw [hx] at hc
    simp at hc
  | cons d ds =>
    rw [hx] at hc
    simp only [List.head?_cons, Option.some.injEq] at hc
    subst hc
    rw [hx] at h1
    simpa using h1

/-- `findClose` on a body none of whose closing braces is followed
(modulo whitespace) by an `@`: the lazy group cannot stop at an inner
brace, so it extends exactly to the appended closing brace. -/
theorem findClose_append2 : ∀ {body : List Char} (r : List Char),
    noAtAfterBrace body = true →
    okLook (r.dropWhile isPySpace) = true →
    findClose (body ++ '}' :: r) = some (body, r.dropWhile isPySpace) := by
  intro body
  induction body with
  | nil =>
    intro r _ hok
    simp only [List.nil_append, findClose]
    rw [if_pos (by simp [hok])]
  | cons c bs ih =>
    intro r hb hok
    have ih' := ih r (noAtAfterBrace_tail hb) hok
    by_cases hc : c = '}'
    · subst hc
      have hv : ∀ x, (('}' :: r) : List Char).head? = some x → isPySpace x = false := by
        intro x hx
        simp only [List.head?_cons, Option.some.injEq] at hx
        subst hx
        decide
      have hfail : okLook ((bs ++ '}' :: r).dropWhile isPySpace) = false := by
        rw [dropWhile_append_head_stop hv bs]
        cases hx : bs.dropWhile isPySpace with
        | nil =>
          rw [List.nil_append]
          exact okLook_cons_ne_at (by decide) r
        | cons d ds =>
          have hd : d ≠ '@' := noAtAfterBrace_head hb d (by rw [hx]; rfl)
          rw [List.cons_append]
          exact okLook_cons_ne_at hd _
      simp only [List.cons_append, findClose]
      rw [if_neg (by simp [hfail])]
      simp only [List.append_eq, ih']
    · simp only [List.cons_append, findClose]
      rw [if_neg (by simp [hc])]
      simp only [List.append_eq, ih']

/-- Successful `matchB` on an entry whose identifier slot is
whitespace-only (possibly empty): the pattern's `\x7b\s*,` consumes the
slot, the identifier is synthesized from the body and the whitespace
after the closing brace is consumed.  The body may contain braces as
long as none of its closing braces is followed, modulo whitespace, by
an `@`. -/
theorem matchB_parse2 {ty id body r : List Char}
    (hty : ty ≠ []) (htyw : ∀ c ∈ ty, isWordChar c = true)
    (hid : ∀ c ∈ id, isPySpace c = true)
    (hb : noAtAfterBrace body = true)
    (hok : okLook (r.dropWhile isPySpace) = true) :
    matchB (ty ++ '{' :: (id ++ ',' :: (body ++ '}' :: r))) =
      some (replacerB ty body, r.dropWhile isPySpace) := by
  have htake : (ty ++ '{' :: (id ++ ',' :: (body ++ '}' :: r))).takeWhile isWordChar = ty :=
    takeWhile_append_stop htyw (by decide) _
  have hdrop : (ty ++ '{' :: (id ++ ',' :: (body ++ '}' :: r))).dropWhile isWordChar =
      '{' :: (id ++ ',' :: (body ++ '}' :: r)) :=
    dropWhile_append_stop htyw (by decide) _
  have htyne : ty.isEmpty = false := by
    cases ty with
    | nil => exact absurd rfl hty
    | cons a as => rfl
  have hdw2 : (id ++ ',' :: (body ++ '}' :: r)).dropWhile isPySpace =
      ',' :: (body ++ '}' :: r) :=
    dropWhile_append_stop hid (by decide) _
  simp only [matchB, htake, hdrop, htyne, Bool.false_eq_true, if_false,
    List.dropWhile_cons_of_neg (by decide : ¬ isPySpace '{' = true), hdw2,
    findClose_append2 _ hb hok]

/-- Successful `matchB` on the canonical empty-identifier entry shape:
the identifier is synthesized from the body and the whitespace after
the closing brace is consumed. -/
theorem matchB_parse {ty body r : List Char}
    (hty : ty ≠ []) (htyw : ∀ c ∈ ty, isWordChar c = true)
    (hb : ∀ c ∈ body, c ≠ '}')
    (hok : okLook (r.dropWhile isPySpace) = true) :
    matchB (ty ++ '{' :: ',' :: (body ++ '}' :: r)) =
      some (replacerB ty body, r.dropWhile isPySpace) := by
  have htake : (ty ++ '{' :: ',' :: (body ++ '}' :: r)).takeWhile isWordChar = ty :=
    takeWhile_append_stop htyw (by decide) _
  have hdrop : (ty ++ '{' :: ',' :: (body ++ '}' :: r)).dropWhile isWordChar =
      '{' :: ',' :: (body ++ '}' :: r) :=
    dropWhile_append_stop htyw (by decide) _
  have htyne : ty.isEmpty = false := by
    cases ty with
    | nil => exact absurd rfl hty
    | cons a as => rfl
  simp only [matchB, htake, hdrop, htyne, Bool.false_eq_true, if_false,
    List.dropWhile_cons_of_neg (by decide : ¬ isPySpace '{' = true),
    List.dropWhile_cons_of_neg (by decide : ¬ isPySpace ',' = true),
    findClose_append hb hok]

/-- A `matchB` attempt fails on an entry whose identifier slot starts
with a character that is neither whitespace nor a comma. -/
theorem matchB_stop {ty id x : List Char}
    (htyw : ∀ c ∈ ty, isWordChar c = true)
    (hid : id ≠ []) (hidh : isPySpace (id.headD ' ') = false)
    (hidc : id.headD ' ' ≠ ',') :
    matchB (ty ++ '{' :: (id ++ ',' :: x)) = none := by
  obtain ⟨c0, id0, hid0⟩ : ∃ c0 id0, id = c0 :: id0 := by
    cases id with
    | nil => exact absurd rfl hid
    | cons a as => exact ⟨a, as, rfl⟩
  rw [hid0] at hidh hidc
  have htake : (ty ++ '{' :: (id ++ ',' :: x)).takeWhile isWordChar = ty :=
    takeWhile_append_stop htyw (by decide) _
  have hdrop : (ty ++ '{' :: (id ++ ',' :: x)).dropWhile isWordChar =
      '{' :: (id ++ ',' :: x) :=
    dropWhile_append_stop htyw (by decide) _
  by_cases htyne : ty.isEmpty = true
  · simp only [matchB, htake, htyne, if_true]
  · simp only [matchB, htake, hdrop, htyne, Bool.false_eq_true, if_false,
      List.dropWhile_cons_of_neg (by decide : ¬ isPySpace '{' = true)]
    rw [hid0, List.cons_append,
      List.dropWhile_cons_of_neg (by simpa using hidh)]
    have hc0 : ¬ (c0 = ',') := by simpa using hidc
    split
    · rename_i t3 heq
      exfalso
      rw [List.cons_eq_cons] at heq
      exact hc0 heq.1
    · rfl

theorem renderListB_cons (e : RawEntryB) (tl : List RawEntryB) :
    renderListB (e :: tl) = renderB e ++ renderListB tl := by
  simp [renderListB]

/-- The empty-ID scan over a document of well-formed entries: every
empty or whitespace-only identifier slot is filled from its entry's
body (and the trailing separator consumed); every other entry passes
through unchanged; no entry is dropped and the order is preserved. -/
theorem subB_renderListB : ∀ {es : List RawEntryB}, (∀ e ∈ es, wfB e) →
    subB (renderListB es) = renderListB (es.map normB) := by
  intro es
  induction es with
  | nil => intro _; rfl
  | cons e tl ih =>
    intro h
    obtain ⟨hty, htyw, hsep, hbody, hempty, hnonempty⟩ := h e (by simp)
    have ih' := ih (fun e' he' => h e' (by simp [he']))
    have hdw : (e.sep ++ renderListB tl).dropWhile isPySpace = renderListB tl := by
      rw [dropWhile_append_all hsep]
      cases htl : tl with
      | nil => rfl
      | cons e2 tl2 =>
        rw [renderListB_cons]
        show (('@' :: (e2.ty ++ '{' :: (e2.id ++ ',' :: (e2.body ++ '}' :: e2.sep)))) ++
          renderListB tl2).dropWhile isPySpace = _
        rw [List.cons_append, List.dropWhile_cons_of_neg (by decide)]
        rfl
    by_cases hid : e.id.all isPySpace = true
    · have hb : noAtAfterBrace e.body = true := hempty hid
      have hidall : ∀ c ∈ e.id, isPySpace c = true := by
        intro c hc
        exact List.all_eq_true.mp hid c hc
      have hok : okLook ((e.sep ++ renderListB tl).dropWhile isPySpace) = true := by
        rw [hdw]
        cases htl : tl with
        | nil => rfl
        | cons e2 tl2 =>
          obtain ⟨hty2, htyw2, _, _, _, _⟩ := h e2 (by simp [htl])
          obtain ⟨c2, ty2r, hty2e⟩ : ∃ c2 ty2r, e2.ty = c2 :: ty2r := by
            cases hx : e2.ty with
            | nil => exact absurd hx hty2
            | cons a as => exact ⟨a, as, rfl⟩
          rw [renderListB_cons]
          show okLook (('@' :: (e2.ty ++ '{' :: (e2.id ++ ',' ::
            (e2.body ++ '}' :: e2.sep)))) ++ renderListB tl2) = true
          rw [hty2e]
          simp only [List.cons_append, List.append_eq, okLook]
          simp [htyw2 c2 (by rw [hty2e]; simp)]
      have hre : renderListB (e :: tl) = '@' :: (e.ty ++ '{' ::
          (e.id ++ ',' :: (e.body ++ '}' :: (e.sep ++ renderListB tl)))) := by
        rw [renderListB_cons]
        show ('@' :: (e.ty ++ '{' :: (e.id ++ ',' :: (e.body ++ '}' :: e.sep)))) ++
          renderListB tl = _
        simp [List.append_assoc]
      rw [hre, subB_at_some (matchB_parse2 hty htyw hidall hb hok), hdw, ih']
      simp only [List.map_cons, renderListB_cons]
      show replacerB e.ty e.body ++ renderListB (tl.map normB) =
        renderB (normB e) ++ renderListB (tl.map normB)
      congr 1
      simp [normB, hid, renderB, replacerB]
    · have hidne : e.id ≠ [] := by
        intro hx
        rw [hx] at hid
        exact hid rfl
      obtain ⟨hidh, hidc, hidat⟩ := hnonempty (by simpa using hid)
      have hre : renderListB (e :: tl) = '@' :: ((e.ty ++ '{' ::
          (e.id ++ ',' :: (e.body ++ '}' :: e.sep))) ++ renderListB tl) := by
        rw [renderListB_cons]
        rfl
      have hmB : matchB ((e.ty ++ '{' :: (e.id ++ ',' ::
          (e.body ++ '}' :: e.sep))) ++ renderListB tl) = none := by
        have hshape : (e.ty ++ '{' :: (e.id ++ ',' :: (e.body ++ '}' :: e.sep))) ++
            renderListB tl = e.ty ++ '{' :: (e.id ++ ',' ::
              ((e.body ++ '}' :: e.sep) ++ renderListB tl)) := by
          simp [List.append_assoc]
        rw [hshape]
        exact matchB_stop htyw hidne hidh hidc
      have hnoat : ∀ c ∈ e.ty ++ '{' :: (e.id ++ ',' :: (e.body ++ '}' :: e.sep)),
          c ≠ '@' := by
        intro c hc
        rcases List.mem_append.mp hc with hc | hc
        · exact word_not_at (htyw c hc)
        · rcases List.mem_cons.mp hc with rfl | hc
          · decide
          · rcases List.mem_append.mp hc with hc | hc
            · exact hidat c hc
            · rcases List.mem_cons.mp hc with rfl | hc
              · decide
              · rcases List.mem_append.mp hc with hc | hc
                · exact hbody c hc
                · rcases List.mem_cons.mp hc with rfl | hc
                  · decide
                  · exact space_not_at (hsep c hc)
      rw [hre, subB_at_none hmB, subB_append_no_at hnoat, ih']
      simp only [List.map_cons, renderListB_cons]
      show '@' :: ((e.ty ++ '{' :: (e.id ++ ',' :: (e.body ++ '}' :: e.sep))) ++
        renderListB (tl.map normB)) = renderB (normB e) ++ renderListB (tl.map normB)
      rw [show normB e = e by simp [normB, hid]]
      rfl

/-- C4, counterexample.  The claim says all text other than the
rewritten `@<type>\x7b,<body>\x7d` occurrences is unchanged; but the pattern's
trailing `\s*` consumes the whitespace between the entry's closing brace
and the next entry (or end of input), so the newline separating the two
entries is dropped; moreover an identifier slot holding only whitespace
(not a comma immediately after the brace) is also rewritten. -/
theorem c4_counterexample :
    corrigir_ids_vazios_raw "@a\x7b ,x\x7d\n@b\x7by,z\x7d" = "@a\x7bEntry,x\x7d@b\x7by,z\x7d" ∧
      "@a\x7bEntry,x\x7d@b\x7by,z\x7d" ≠ "@a\x7b ,x\x7d\n@b\x7by,z\x7d" ∧
      "@a\x7bEntry,x\x7d@b\x7by,z\x7d" ≠ "@a\x7bEntry,x\x7d\n@b\x7by,z\x7d" :=
  ⟨by decide, by decide, by decide⟩

/-- C4 (amended): on a document of well-formed entries, every entry
whose identifier slot is empty or whitespace-only is rewritten to
`@<type>\x7b<generated-id>,<body>\x7d` — the slot's whitespace is consumed,
the identifier is synthesized from the body's title/year fields, and
the whitespace between the entry's closing brace and the next `@<word>`
token (or end of input) is consumed; the body may contain braces (e.g.
braced field values) as long as no closing brace inside it is followed,
modulo whitespace, by an `@` (there the lookahead would anchor the
entry early).  All other entries pass through byte-for-byte, no entry
is dropped, and the order of entries is preserved (first two
conjuncts); the per-entry action is exactly: a whitespace-only slot
gets the synthesized identifier and loses its trailing separator, any
other entry is returned unchanged (third conjunct). -/
theorem c4_empty_id_repair (es : List RawEntryB) (h : ∀ e ∈ es, wfB e) :
    (corrigir_ids_vazios_raw ⟨renderListB es⟩ = ⟨renderListB (es.map normB)⟩ ∧
      (es.map normB).length = es.length) ∧
      ∀ e : RawEntryB,
        (e.id.all isPySpace = true →
          normB e = ⟨e.ty, gerarIdTituloAnoL (tituloOf e.body) (anoOf e.body),
            e.body, []⟩) ∧
        (e.id.all isPySpace = false → normB e = e) := by
  refine ⟨⟨congrArg String.mk (subB_renderListB h), by simp⟩, ?_⟩
  intro e
  constructor
  · intro hall
    simp [normB, hall]
  · intro hall
    simp [normB, hall]

/-- C4 witness: a two-entry document — the first entry has a
whitespace-only identifier slot, a newline separator and braced
`title`/`year` field values (the spec's flagship shape), the second a
proper identifier; only the first is rewritten. -/
theorem c4_empty_id_repair_witness :
    (∀ e ∈ [(⟨"article".data, " ".data,
          " title=\x7bDeep Learning\x7d, year=\x7b2020\x7d".data, "\n".data⟩ : RawEntryB),
        ⟨"article".data, "Keep1".data, " title=\x7bX\x7d".data, []⟩], wfB e) ∧
      corrigir_ids_vazios_raw
          ⟨renderListB [⟨"article".data, " ".data,
              " title=\x7bDeep Learning\x7d, year=\x7b2020\x7d".data, "\n".data⟩,
            ⟨"article".data, "Keep1".data, " title=\x7bX\x7d".data, []⟩]⟩ =
        ⟨renderListB ([(⟨"article".data, " ".data,
              " title=\x7bDeep Learning\x7d, year=\x7b2020\x7d".data, "\n".data⟩ : RawEntryB),
            ⟨"article".data, "Keep1".data, " title=\x7bX\x7d".data, []⟩].map normB)⟩ :=
  ⟨by decide, ((c4_empty_id_repair _ (by decide)).1).1⟩

/-- C1 (code bug): on the spec's collision scenario the raw empty-ID
pass synthesizes `Deep2020` for both entries (it does not check
uniqueness, as documented), and the structured pass then leaves both
identifiers untouched because they are non-empty — its disambiguation
never runs.  Both entries end up with the identifier `Deep2020`;
`Deep2020_2` appears nowhere in the output, and the second run counts
zero corrections. -/
theorem c1_duplicate_ids :
    corrigir_ids_vazios_raw (corrigir_espacos_ids_raw
        "@article\x7b, title=\x7bDeep Learning\x7d, year=\x7b2020\x7d\x7d\n@article\x7b, title=\x7bDeep Learning Systems\x7d, year=\x7b2020\x7d\x7d") =
      "@article\x7bDeep2020, title=\x7bDeep Learning\x7d, year=\x7b2020\x7d\x7d@article\x7bDeep2020, title=\x7bDeep Learning Systems\x7d, year=\x7b2020\x7d\x7d" ∧
    (parseBib "@article\x7bDeep2020, title=\x7bDeep Learning\x7d, year=\x7b2020\x7d\x7d@article\x7bDeep2020, title=\x7bDeep Learning Systems\x7d, year=\x7b2020\x7d\x7d").map BibEntry.ID =
      ["Deep2020", "Deep2020"] ∧
    (corrigirEntries (parseBib "@article\x7bDeep2020, title=\x7bDeep Learning\x7d, year=\x7b2020\x7d\x7d@article\x7bDeep2020, title=\x7bDeep Learning Systems\x7d, year=\x7b2020\x7d\x7d")).1.map
        BibEntry.ID = ["Deep2020", "Deep2020"] ∧
    (pipeline "@article\x7b, title=\x7bDeep Learning\x7d, year=\x7b2020\x7d\x7d\n@article\x7b, title=\x7bDeep Learning Systems\x7d, year=\x7b2020\x7d\x7d").2.2 = 0 ∧
    ¬ "Deep2020_2".data <:+:
      (pipeline "@article\x7b, title=\x7bDeep Learning\x7d, year=\x7b2020\x7d\x7d\n@article\x7b, title=\x7bDeep Learning Systems\x7d, year=\x7b2020\x7d\x7d").1.data :=
  ⟨by decide, by decide, by decide, by decide, by decide⟩

/-! Digits of `Nat.repr`, needed because the summary comment and the
disambiguation suffixes interpolate numbers. -/

theorem digitChar_digit {n : Nat} (h : n < 10) : (Nat.digitChar n).isDigit = true := by
  interval_cases n <;> decide

theorem toDigitsCore_digits :
    ∀ (f n : Nat) (ds : List Char), (∀ c ∈ ds, c.isDigit = true) →
      ∀ c ∈ Nat.toDigitsCore 10 f n ds, c.isDigit = true := by
  intro f
  induction f with
  | zero => intro n ds hds c hc; exact hds c hc
  | succ f ih =>
    intro n ds hds c hc
    simp only [Nat.toDigitsCore] at hc
    split at hc
    · rcases List.mem_cons.mp hc with rfl | hc
      · exact digitChar_digit (Nat.mod_lt _ (by norm_num))
      · exact hds c hc
    · refine ih _ _ ?_ c hc
      intro x hx
      rcases List.mem_cons.mp hx with rfl | hx
      · exact digitChar_digit (Nat.mod_lt _ (by norm_num))
      · exact hds x hx

theorem repr_digits (n : Nat) : ∀ c ∈ (Nat.repr n).data, c.isDigit = true := by
  intro c hc
  exact toDigitsCore_digits (n + 1) n [] (by simp) c hc

theorem digit_not_special {c : Char} (h : c.isDigit = true) :
    isPySpace c = false ∧ c ≠ '{' ∧ c ≠ '}' ∧ c ≠ '@' ∧ c ≠ ',' := by
  refine ⟨?_, ?_, ?_, ?_, ?_⟩
  · cases hs : isPySpace c
    · rfl
    · exfalso
      rcases pySpace_cases hs with h2 | h2 | h2 | h2 | h2 | h2 <;>
        (subst h2; revert h; decide)
  · intro he; subst he; revert h; decide
  · intro he; subst he; revert h; decide
  · intro he; subst he; revert h; decide
  · intro he; subst he; revert h; decide

theorem alnum_not_special {c : Char} (h : isAlnumAscii c = true) :
    isPySpace c = false ∧ c ≠ '{' ∧ c ≠ '}' ∧ c ≠ '@' ∧ c ≠ ',' := by
  have halpha : c.isAlpha = true ∨ c.isDigit = true := by
    simp only [isAlnumAscii, Bool.or_eq_true] at h
    exact h
  rcases halpha with h2 | h2
  · refine ⟨?_, ?_, ?_, ?_, ?_⟩
    · cases hs : isPySpace c
      · rfl
      · exfalso
        rcases pySpace_cases hs with h3 | h3 | h3 | h3 | h3 | h3 <;>
          (subst h3; revert h2; decide)
    · intro he; subst he; revert h2; decide
    · intro he; subst he; revert h2; decide
    · intro he; subst he; revert h2; decide
    · intro he; subst he; revert h2; decide
  · exact digit_not_special h2

theorem nameChar_not_at {c : Char} (h : isNameChar c = true) : c ≠ '@' := by
  intro he
  subst he
  revert h
  decide

theorem pyStrip_subset {l : List Char} : ∀ c ∈ pyStrip l, c ∈ l := by
  intro c hc
  unfold pyStrip at hc
  rw [List.mem_reverse] at hc
  have h1 := dropWhile_subset_mem c hc
  rw [List.mem_reverse] at h1
  exact dropWhile_subset_mem c h1

/-! The serialized document as a character list. -/

theorem data_foldr_append (l : List String) :
    (l.foldr (fun a b => a ++ b) "").data =
      (l.map String.data).foldr (fun a b => a ++ b) [] := by
  induction l with
  | nil => rfl
  | cons a as ih =>
    simp only [List.foldr_cons, List.map_cons, String.data_append, ih]

theorem dumpsEntry_chars (e : BibEntry) : (dumpsEntry e).data = entryChars e := by
  unfold dumpsEntry entryChars
  simp only [String.data_append, data_foldr_append, List.map_map]
  have hf : (List.map (String.data ∘ fun p : String × String =>
      " " ++ p.1 ++ " = \x7b" ++ p.2 ++ "\x7d,\n") e.fields) = e.fields.map fieldChars := by
    refine List.map_congr_left ?_
    intro p _
    show (" " ++ p.1 ++ " = \x7b" ++ p.2 ++ "\x7d,\n").data = fieldChars p
    simp only [String.data_append]
    show [' '] ++ p.1.data ++ [' ', '=', ' ', '{'] ++ p.2.data ++ ['}', ',', '\n'] = _
    simp [fieldChars, List.append_assoc]
  rw [hf]
  show ['@'] ++ e.ENTRYTYPE.data ++ ['{'] ++ e.ID.data ++ [',', '\n'] ++
      fieldsChars e.fields ++ ['}', '\n', '\n'] = _
  simp [fieldsChars, List.append_assoc]

theorem dumps_chars (es : List BibEntry) : (dumps es).data = docChars es := by
  induction es with
  | nil => rfl
  | cons e tl ih =>
    show (dumpsEntry e ++ (tl.map dumpsEntry).foldr (fun a b => a ++ b) "").data = _
    rw [String.data_append, dumpsEntry_chars]
    show entryChars e ++ (dumps tl).data = docChars (e :: tl)
    rw [ih]
    rfl

/-! Whitespace-free lists are fixed points of the trimming helpers. -/

theorem dropWhile_all_false {p : Char → Bool} {l : List Char}
    (h : ∀ c ∈ l, p c = false) : l.dropWhile p = l := by
  cases l with
  | nil => rfl
  | cons a as => exact List.dropWhile_cons_of_neg (by simp [h a (by simp)])

theorem dropTrail_all_false {p : Char → Bool} {l : List Char}
    (h : ∀ c ∈ l, p c = false) : dropTrail p l = l := by
  unfold dropTrail
  rw [dropWhile_all_false (fun c hc => h c (List.mem_reverse.mp hc)),
    List.reverse_reverse]

theorem pyStrip_all {l : List Char} (h : ∀ c ∈ l, isPySpace c = false) :
    pyStrip l = l := by
  unfold pyStrip
  rw [dropWhile_all_false h,
    dropWhile_all_false (fun c hc => h c (List.mem_reverse.mp hc)),
    List.reverse_reverse]

theorem fixId_ws_free {l : List Char} (h : ∀ c ∈ l, isPySpace c = false) :
    fixId l = l := by
  have h1 : l.dropWhile isPySpace = l := dropWhile_all_false h
  have h2 : dropTrail isPySpace l = l := dropTrail_all_false h
  have h3 : l.contains ' ' = false := contains_space_false h
  simp only [fixId, h1, h2, h3]
  simp

theorem str_eq_empty_of_data {s : String} (h : s.data = []) : s = "" := by
  cases s with
  | mk d =>
    subst h
    rfl

/-! The serialized characters of a tame entry contain no `@` outside
the entry markers. -/

theorem toString_nat_digits (n : Nat) : ∀ c ∈ (toString n).data, c.isDigit = true :=
  repr_digits n

theorem mem_fieldsChars {fs : List (String × String)} {c : Char}
    (hc : c ∈ fieldsChars fs) : ∃ p ∈ fs, c ∈ fieldChars p := by
  induction fs with
  | nil => simp [fieldsChars] at hc
  | cons p tl ih =>
    rw [show fieldsChars (p :: tl) = fieldChars p ++ fieldsChars tl from rfl] at hc
    rcases List.mem_append.mp hc with hc | hc
    · exact ⟨p, by simp, hc⟩
    · obtain ⟨q, hq, hcq⟩ := ih hc
      exact ⟨q, by simp [hq], hcq⟩

theorem fieldsChars_no_at {fs : List (String × String)}
    (h : ∀ p ∈ fs, (∀ c ∈ p.1.data, isNameChar c = true) ∧ (∀ c ∈ p.2.data, c ≠ '@')) :
    ∀ c ∈ fieldsChars fs, c ≠ '@' := by
  intro c hc
  obtain ⟨p, hp, hcp⟩ := mem_fieldsChars hc
  obtain ⟨hn, hv⟩ := h p hp
  simp only [fieldChars, List.mem_cons, List.mem_append, List.not_mem_nil,
    or_false] at hcp
  rcases hcp with rfl | hcp | rfl | rfl | rfl | rfl | hcp | rfl | rfl | rfl
  · decide
  · exact nameChar_not_at (hn c hcp)
  · decide
  · decide
  · decide
  · decide
  · exact hv c hcp
  · decide
  · decide
  · decide

theorem comentario_no_at (n : Nat) : ∀ c ∈ (comentario n).data, c ≠ '@' := by
  intro c hc
  unfold comentario at hc
  rw [String.data_append, String.data_append] at hc
  rcases List.mem_append.mp hc with hc | hc
  · rcases List.mem_append.mp hc with hc | hc
    · exact (by decide : ∀ x ∈ ("% Processamento completo.\n% IDs vazios preenchidos: " : String).data, x ≠ '@') c hc
    · exact (digit_not_special (toString_nat_digits n c hc)).2.2.2.1
  · exact (by decide : ∀ x ∈ ("\n% IDs com espaços ajustados previamente.\n% Gerado por BibTeX ID Fixer (Flask).\n\n" : String).data, x ≠ '@') c hc

/-! Tameness of the identifiers the structured fixer generates. -/

theorem getField_cases (e : BibEntry) (k : String) :
    getField e k = "" ∨ ∃ p, p ∈ e.fields ∧ getField e k = p.2 := by
  unfold getField
  cases hf : e.fields.find? (fun p => p.1 == k) with
  | none => exact Or.inl rfl
  | some p => exact Or.inr ⟨p, List.mem_of_find?_eq_some hf, rfl⟩

theorem gerarIdTituloAnoL_good {titulo ano : List Char}
    (hano : ∀ c ∈ ano, isPySpace c = false ∧ c ≠ '{' ∧ c ≠ '}' ∧ c ≠ '@' ∧ c ≠ ',') :
    gerarIdTituloAnoL titulo ano ≠ [] ∧
      ∀ c ∈ gerarIdTituloAnoL titulo ano,
        isPySpace c = false ∧ c ≠ '{' ∧ c ≠ '}' ∧ c ≠ '@' ∧ c ≠ ',' := by
  have hEgood : ∀ c ∈ "Entry".data,
      isPySpace c = false ∧ c ≠ '{' ∧ c ≠ '}' ∧ c ≠ '@' ∧ c ≠ ',' := by decide
  have hgen : ∀ pr : List Char, pr ≠ [] →
      (∀ c ∈ pr, isPySpace c = false ∧ c ≠ '{' ∧ c ≠ '}' ∧ c ≠ '@' ∧ c ≠ ',') →
      (if ano.isEmpty = true then pr else pr ++ ano) ≠ [] ∧
        ∀ c ∈ (if ano.isEmpty = true then pr else pr ++ ano),
          isPySpace c = false ∧ c ≠ '{' ∧ c ≠ '}' ∧ c ≠ '@' ∧ c ≠ ',' := by
    intro pr hne hpr
    by_cases ha : ano.isEmpty = true
    · rw [if_pos ha]
      exact ⟨hne, hpr⟩
    · rw [if_neg ha]
      refine ⟨by simp [hne], ?_⟩
      intro c hc
      rcases List.mem_append.mp hc with hc | hc
      · exact hpr c hc
      · exact hano c hc
  simp only [gerarIdTituloAnoL]
  by_cases hemp :
      (((pyStrip ((titulo.filter (fun c => c ≠ '{')).filter (fun c => c ≠ '}'))).takeWhile
        (fun c => !isPySpace c)).filter isAlnumAscii).isEmpty = true
  · rw [if_pos hemp]
    exact hgen _ (by decide) hEgood
  · rw [if_neg hemp]
    refine hgen _ ?_ ?_
    · intro h0
      rw [h0] at hemp
      exact hemp rfl
    · intro c hc
      exact alnum_not_special (List.mem_filter.mp hc).2

theorem disambigAux_chars (base : String) (ex : List String) :
    ∀ (fuel sfx : Nat) (c : Char), c ∈ (disambigAux base ex sfx fuel).data →
      c ∈ base.data ∨ c = '_' ∨ c.isDigit = true := by
  intro fuel
  induction fuel with
  | zero => intro sfx c hc; exact Or.inl hc
  | succ fuel ih =>
    intro sfx c hc
    simp only [disambigAux] at hc
    split at hc
    · exact ih (sfx + 1) c hc
    · rw [String.data_append, String.data_append] at hc
      rcases List.mem_append.mp hc with hc | hc
      · rcases List.mem_append.mp hc with hc | hc
        · exact Or.inl hc
        · exact Or.inr (Or.inl (by simpa using hc))
      · exact Or.inr (Or.inr (toString_nat_digits sfx c hc))

theorem disambigAux_ne (base : String) (ex : List String) (hb : base.data ≠ []) :
    ∀ (fuel sfx : Nat), (disambigAux base ex sfx fuel).data ≠ [] := by
  intro fuel
  induction fuel with
  | zero => intro sfx; exact hb
  | succ fuel ih =>
    intro sfx
    simp only [disambigAux]
    split
    · exact ih (sfx + 1)
    · rw [String.data_append, String.data_append]
      intro h0
      rcases List.append_eq_nil.mp h0 with ⟨h1, -⟩
      rcases List.append_eq_nil.mp h1 with ⟨h2, -⟩
      exact hb h2

theorem gerar_id_unico_good {e : BibEntry} (h : tameEntry e) (ids : List String) (idx : Nat) :
    (gerar_id_unico e ids idx).1.data ≠ [] ∧
      ∀ c ∈ (gerar_id_unico e ids idx).1.data,
        isPySpace c = false ∧ c ≠ '{' ∧ c ≠ '}' ∧ c ≠ '@' ∧ c ≠ ',' := by
  obtain ⟨-, -, -, -, hyear⟩ := h
  have hbase := @gerarIdTituloAnoL_good (pyStripS (getField e "title")).data _ hyear
  have hshow : (gerar_id_unico e ids idx).1 =
      (if gerar_id_titulo_ano (pyStripS (getField e "title"))
            (pyStripS (getField e "year")) ∈ ids
       then disambigAux (gerar_id_titulo_ano (pyStripS (getField e "title"))
              (pyStripS (getField e "year"))) ids 2 (ids.length + 1)
       else gerar_id_titulo_ano (pyStripS (getField e "title"))
              (pyStripS (getField e "year"))) := rfl
  rw [hshow]
  split
  · constructor
    · exact disambigAux_ne _ ids hbase.1 _ _
    · intro c hc
      rcases disambigAux_chars _ ids _ _ c hc with hc | rfl | hc
      · exact hbase.2 c hc
      · exact ⟨by decide, by decide, by decide, by decide, by decide⟩
      · exact digit_not_special hc
  · exact hbase

theorem fixLoop_tame : ∀ (es : List BibEntry) (ids : List String) (idx n : Nat),
    (∀ e ∈ es, tameEntry e) →
    ∀ e' ∈ (fixLoop es ids idx n).1, tameEntry e' ∧ e'.ID.data ≠ [] := by
  intro es
  induction es with
  | nil =>
    intro ids idx n _ e' he'
    simp [fixLoop] at he'
  | cons e tl ih =>
    intro ids idx n h e' he'
    by_cases hcond : e.ID = "" ∨ pyStripS e.ID = ""
    · have hf : (fixLoop (e :: tl) ids idx n).1 =
          ⟨e.ENTRYTYPE, (gerar_id_unico e ids idx).1, e.fields⟩ ::
            (fixLoop tl (gerar_id_unico e ids idx).2 (idx + 1) (n + 1)).1 := by
        simp only [fixLoop, if_pos hcond]
      rw [hf] at he'
      rcases List.mem_cons.mp he' with rfl | he'
      · obtain ⟨h1, h2, h3, _, h5⟩ := h e (by simp)
        have hg := gerar_id_unico_good (h e (by simp)) ids idx
        exact ⟨⟨h1, h2, h3, hg.2, h5⟩, hg.1⟩
      · exact ih _ _ _ (fun x hx => h x (by simp [hx])) e' he'
    · have hf : (fixLoop (e :: tl) ids idx n).1 =
          e :: (fixLoop tl ids (idx + 1) n).1 := by
        simp only [fixLoop, if_neg hcond]
      rw [hf] at he'
      rcases List.mem_cons.mp he' with rfl | he'
      · refine ⟨h e' (by simp), ?_⟩
        intro hd
        exact hcond (Or.inl (str_eq_empty_of_data hd))
      · exact ih _ _ _ (fun x hx => h x (by simp [hx])) e' he'

/-! Length bounds and brace-free evaluation of the modelled parser. -/

theorem braceAux_flat : ∀ (v : List Char) (f : Nat) (r : List Char),
    (∀ c ∈ v, c ≠ '{' ∧ c ≠ '}') → v.length < f →
    braceAux f 0 (v ++ '}' :: r) = some (v, r) := by
  intro v
  induction v with
  | nil =>
    intro f r _ hf
    obtain ⟨f', rfl⟩ : ∃ f', f = f' + 1 := ⟨f - 1, by omega⟩
    show braceAux (f' + 1) 0 ('}' :: r) = some ([], r)
    simp [braceAux]
  | cons a v ih =>
    intro f r hv hf
    obtain ⟨f', rfl⟩ : ∃ f', f = f' + 1 := ⟨f - 1, by omega⟩
    obtain ⟨ha1, ha2⟩ := hv a (by simp)
    show braceAux (f' + 1) 0 (a :: (v ++ '}' :: r)) = some (a :: v, r)
    simp only [braceAux, if_neg ha2, if_neg ha1,
      ih f' r (fun c hc => hv c (by simp [hc])) (by simp at hf; omega)]

theorem braceAux_bal : ∀ (v : List Char) (d f : Nat) (r : List Char),
    braceBal d v = true → v.length < f →
    braceAux f d (v ++ '}' :: r) = some (v, r) := by
  intro v
  induction v with
  | nil =>
    intro d f r hb hf
    have hd : d = 0 := by simpa [braceBal] using hb
    subst hd
    obtain ⟨f', rfl⟩ : ∃ f', f = f' + 1 := ⟨f - 1, by omega⟩
    show braceAux (f' + 1) 0 ('}' :: r) = some ([], r)
    simp [braceAux]
  | cons a v ih =>
    intro d f r hb hf
    obtain ⟨f', rfl⟩ : ∃ f', f = f' + 1 := ⟨f - 1, by omega⟩
    show braceAux (f' + 1) d (a :: (v ++ '}' :: r)) = some (a :: v, r)
    by_cases ha2 : a = '}'
    · subst ha2
      have hd : ¬ (d = 0) := by
        intro h0
        subst h0
        simp [braceBal] at hb
      have hb' : braceBal (d - 1) v = true := by
        simpa [braceBal, hd] using hb
      simp only [braceAux, if_pos rfl, if_true, if_neg hd,
        ih (d - 1) f' r hb' (by simp at hf; omega)]
    · by_cases ha1 : a = '{'
      · subst ha1
        have hb' : braceBal (d + 1) v = true := by
          simpa [braceBal] using hb
        simp only [braceAux, if_neg (by decide : ¬ ('{' : Char) = '}'), if_pos rfl,
          if_true, ih (d + 1) f' r hb' (by simp at hf; omega)]
      · have hb' : braceBal d v = true := by
          simpa [braceBal, ha1, ha2] using hb
        simp only [braceAux, if_neg ha2, if_neg ha1,
          ih d f' r hb' (by simp at hf; omega)]

theorem braceAux_le : ∀ (f d : Nat) (l v r : List Char),
    braceAux f d l = some (v, r) → r.length ≤ l.length := by
  intro f
  induction f with
  | zero =>
    intro d l v r h
    simp [braceAux] at h
  | succ f ih =>
    intro d l v r h
    cases l with
    | nil => simp [braceAux] at h
    | cons c cs =>
      simp only [braceAux] at h
      split at h
      · split at h
        · simp only [Option.some.injEq, Prod.mk.injEq] at h
          rw [← h.2]
          simp only [List.length_cons]
          omega
        · split at h
          · simp at h
          · rename_i v' r' heq
            simp only [Option.some.injEq, Prod.mk.injEq] at h
            rw [← h.2]
            have := ih _ _ _ _ heq
            simp only [List.length_cons]
            omega
      · split at h
        · split at h
          · simp at h
          · rename_i v' r' heq
            simp only [Option.some.injEq, Prod.mk.injEq] at h
            rw [← h.2]
            have := ih _ _ _ _ heq
            simp only [List.length_cons]
            omega
        · split at h
          · simp at h
          · rename_i v' r' heq
            simp only [Option.some.injEq, Prod.mk.injEq] at h
            rw [← h.2]
            have := ih _ _ _ _ heq
            simp only [List.length_cons]
            omega

theorem parseFields_le : ∀ (f : Nat) (l : List Char) (fs : List (String × String)) (r : List Char),
    parseFields f l = some (fs, r) → r.length ≤ l.length := by
  intro f
  induction f with
  | zero =>
    intro l fs r h
    simp [parseFields] at h
  | succ f ih =>
    intro l fs r h
    have hd1 : (l.dropWhile (fun c => isPySpace c || c = ',')).length ≤ l.length :=
      length_dropWhile_le' _ _
    simp only [parseFields] at h
    generalize hgen : l.dropWhile (fun c => isPySpace c || c = ',') = l1 at h hd1
    split at h
    · simp at h
    · simp only [Option.some.injEq, Prod.mk.injEq] at h
      simp only [List.length_cons] at hd1
      rw [← h.2]
      omega
    · split at h
      · simp at h
      · have hd2 : ((l1.dropWhile isNameChar).dropWhile isPySpace).length ≤ l1.length :=
          Nat.le_trans (length_dropWhile_le' _ _) (length_dropWhile_le' _ _)
        generalize hgen2 : (l1.dropWhile isNameChar).dropWhile isPySpace = l2 at h hd2
        split at h
        · rename_i l3
          simp only [List.length_cons] at hd2
          have hd3 : (l3.dropWhile isPySpace).length ≤ l3.length := length_dropWhile_le' _ _
          generalize hgen3 : l3.dropWhile isPySpace = l4 at h hd3
          split at h
          · rename_i l5
            simp only [List.length_cons] at hd3
            split at h
            · simp at h
            · rename_i v0 r0 heq4
              have hb := braceAux_le _ _ _ _ _ heq4
              split at h
              · simp at h
              · rename_i fs0 r20 heq5
                have hr := ih _ _ _ heq5
                simp only [Option.some.injEq, Prod.mk.injEq] at h
                rw [← h.2]
                omega
          · have hd5 : (l4.dropWhile (fun c => c ≠ ',' && c ≠ '}')).length ≤ l4.length :=
              length_dropWhile_le' _ _
            split at h
            · simp at h
            · rename_i fs0 r20 heq5
              have hr := ih _ _ _ heq5
              simp only [Option.some.injEq, Prod.mk.injEq] at h
              rw [← h.2]
              omega
        · simp at h

theorem parseEntry_le : ∀ {s : List Char} {e : BibEntry} {r : List Char},
    parseEntry s = some (e, r) → r.length ≤ s.length := by
  intro s e r h
  have hd1 : ((s.dropWhile isWordChar).dropWhile isPySpace).length ≤ s.length :=
    Nat.le_trans (length_dropWhile_le' _ _) (length_dropWhile_le' _ _)
  simp only [parseEntry] at h
  split at h
  · simp at h
  · generalize hgen : (s.dropWhile isWordChar).dropWhile isPySpace = l1 at h hd1
    split at h
    · rename_i t
      simp only [List.length_cons] at hd1
      have hd2 : (t.dropWhile (fun c => c ≠ ',' && c ≠ '}')).length ≤ t.length :=
        length_dropWhile_le' _ _
      generalize hgen2 : t.dropWhile (fun c => c ≠ ',' && c ≠ '}') = l2 at h hd2
      split at h
      · rename_i r2
        simp only [List.length_cons] at hd2
        split at h
        · simp at h
        · rename_i fs0 r30 heq
          have hp := parseFields_le _ _ _ _ heq
          simp only [Option.some.injEq, Prod.mk.injEq] at h
          rw [← h.2]
          omega
      · rename_i r2
        simp only [List.length_cons] at hd2
        simp only [Option.some.injEq, Prod.mk.injEq] at h
        rw [← h.2]
        omega
      · simp at h
    · simp at h

/-! Unfolding equations of the modelled document scan. -/

theorem parseAux_congr : ∀ (f1 f2 : Nat) (l : List Char),
    l.length ≤ f1 → l.length ≤ f2 → parseAux f1 l = parseAux f2 l := by
  intro f1
  induction f1 with
  | zero =>
    intro f2 l h1 _
    have hl : l = [] := List.length_eq_zero.mp (Nat.le_zero.mp h1)
    subst hl
    cases f2 <;> rfl
  | succ f ih =>
    intro f2 l h1 h2
    cases l with
    | nil => cases f2 <;> rfl
    | cons c cs =>
      cases f2 with
      | zero => simp at h2
      | succ f2' =>
        simp only [List.length_cons, Nat.add_le_add_iff_right] at h1 h2
        show parseAux (f + 1) (c :: cs) = parseAux (f2' + 1) (c :: cs)
        simp only [parseAux]
        by_cases hc : c = '@'
        · simp only [if_pos hc]
          cases m : parseEntry cs with
          | none =>
            show parseAux f cs = parseAux f2' cs
            exact ih f2' cs h1 h2
          | some p =>
            obtain ⟨e, after⟩ := p
            have hle := parseEntry_le m
            show e :: parseAux f after = e :: parseAux f2' after
            rw [ih f2' after (by omega) (by omega)]
        · simp only [if_neg hc]
          exact ih f2' cs h1 h2

theorem parseAux_no_at : ∀ (f : Nat) (l : List Char), (∀ c ∈ l, c ≠ '@') →
    parseAux f l = [] := by
  intro f
  induction f with
  | zero =>
    intro l _
    cases l <;> rfl
  | succ f ih =>
    intro l h
    cases l with
    | nil => rfl
    | cons c cs =>
      show parseAux (f + 1) (c :: cs) = []
      simp only [parseAux, if_neg (h c (by simp))]
      exact ih cs (fun x hx => h x (by simp [hx]))

theorem parseAux_skip : ∀ (junk : List Char) (f : Nat) (l : List Char),
    (∀ c ∈ junk, c ≠ '@') →
    parseAux (junk.length + f) (junk ++ l) = parseAux f l := by
  intro junk
  induction junk with
  | nil =>
    intro f l _
    simp
  | cons a as ih =>
    intro f l h
    rw [show (a :: as).length + f = as.length + f + 1 from by simp; omega]
    show parseAux (as.length + f + 1) (a :: (as ++ l)) = parseAux f l
    simp only [parseAux, if_neg (h a (by simp))]
    exact ih f l (fun x hx => h x (by simp [hx]))

theorem parseAux_at_some {cs : List Char} {e : BibEntry} {rest : List Char} (f : Nat)
    (h : parseEntry cs = some (e, rest)) :
    parseAux (f + 1) ('@' :: cs) = e :: parseAux f rest := by
  simp only [parseAux, if_pos rfl, if_true, h]

/-! The modelled parser inverts the modelled serializer on tame
entries. -/

theorem parseFields_close (f : Nat) {junk : List Char} (r : List Char)
    (hj : ∀ c ∈ junk, (isPySpace c || c = ',') = true) :
    parseFields (f + 1) (junk ++ '}' :: r) = some ([], r) := by
  have hdrop : (junk ++ '}' :: r).dropWhile (fun c => isPySpace c || c = ',') = '}' :: r :=
    dropWhile_append_stop hj (by decide) r
  simp only [parseFields, hdrop]

theorem parseFields_step (f : Nat) {junk name val : List Char} (rest : List Char)
    (hj : ∀ c ∈ junk, (isPySpace c || c = ',') = true)
    (hn : name ≠ []) (hnc : ∀ c ∈ name, isNameChar c = true)
    (hv : braceBal 0 val = true)
    {fs : List (String × String)} {r2 : List Char}
    (hrec : parseFields f rest = some (fs, r2)) :
    parseFields (f + 1)
        (junk ++ ' ' :: (name ++ ' ' :: '=' :: ' ' :: '{' :: (val ++ '}' :: rest))) =
      some ((⟨name.map Char.toLower⟩, ⟨val⟩) :: fs, r2) := by
  obtain ⟨a, name', rfl⟩ : ∃ a name', name = a :: name' := by
    cases name with
    | nil => exact absurd rfl hn
    | cons a as => exact ⟨a, as, rfl⟩
  have ha := hnc a (by simp)
  have haws : isPySpace a = false := by
    cases hx : isPySpace a
    · rfl
    · exfalso
      revert ha
      simp [isNameChar, hx]
  have hacomma : ¬ (a = ',') := by
    intro hx
    revert ha
    simp [isNameChar, hx]
  have habrace : ¬ (a = '}') := by
    intro hx
    revert ha
    simp [isNameChar, hx]
  have hahead : (isPySpace a || a = ',') = false := by
    simp [haws, hacomma]
  have hdrop : (junk ++ ' ' :: ((a :: name') ++ ' ' :: '=' :: ' ' :: '{' :: (val ++ '}' :: rest))).dropWhile
      (fun c => isPySpace c || c = ',') =
      a :: (name' ++ ' ' :: '=' :: ' ' :: '{' :: (val ++ '}' :: rest)) := by
    rw [show junk ++ ' ' :: ((a :: name') ++ ' ' :: '=' :: ' ' :: '{' :: (val ++ '}' :: rest)) =
        (junk ++ [' ']) ++ (a :: (name' ++ ' ' :: '=' :: ' ' :: '{' :: (val ++ '}' :: rest)))
      from by simp]
    refine dropWhile_append_stop ?_ hahead _
    intro c hc
    rcases List.mem_append.mp hc with hc | hc
    · exact hj c hc
    · simp only [List.mem_singleton] at hc
      subst hc
      decide
  have htake : (a :: (name' ++ ' ' :: '=' :: ' ' :: '{' :: (val ++ '}' :: rest))).takeWhile
      isNameChar = a :: name' := by
    rw [show a :: (name' ++ ' ' :: '=' :: ' ' :: '{' :: (val ++ '}' :: rest)) =
        (a :: name') ++ ' ' :: ('=' :: ' ' :: '{' :: (val ++ '}' :: rest)) from by simp]
    exact takeWhile_append_stop hnc (by decide) _
  have hdropn : (a :: (name' ++ ' ' :: '=' :: ' ' :: '{' :: (val ++ '}' :: rest))).dropWhile
      isNameChar = ' ' :: ('=' :: ' ' :: '{' :: (val ++ '}' :: rest)) := by
    rw [show a :: (name' ++ ' ' :: '=' :: ' ' :: '{' :: (val ++ '}' :: rest)) =
        (a :: name') ++ ' ' :: ('=' :: ' ' :: '{' :: (val ++ '}' :: rest)) from by simp]
    exact dropWhile_append_stop hnc (by decide) _
  have hbrace : braceAux (val ++ '}' :: rest).length 0 (val ++ '}' :: rest) =
      some (val, rest) :=
    braceAux_bal val 0 _ rest hv (by simp)
  simp only [parseFields, hdrop]
  split
  · rename_i heq
    exact absurd heq (by simp)
  · rename_i rest0 heq
    rw [List.cons_eq_cons] at heq
    exact absurd heq.1 habrace
  · simp only [htake, hdropn, List.isEmpty_cons, Bool.false_eq_true, if_false,
      List.dropWhile_cons_of_pos (by decide : isPySpace ' ' = true),
      List.dropWhile_cons_of_neg (by decide : ¬ isPySpace '=' = true),
      List.dropWhile_cons_of_neg (by decide : ¬ isPySpace '{' = true),
      hbrace, hrec]

theorem fieldsChars_length_ge (fs : List (String × String)) :
    fs.length ≤ (fieldsChars fs).length := by
  induction fs with
  | nil => simp [fieldsChars]
  | cons p tl ih =>
    rw [show fieldsChars (p :: tl) = fieldChars p ++ fieldsChars tl from rfl]
    simp only [List.length_append, List.length_cons, fieldChars]
    omega

theorem parseFields_dumps : ∀ (fs : List (String × String)) {junk : List Char} (r : List Char)
    (f : Nat),
    (∀ p ∈ fs, p.1.data ≠ [] ∧
      (∀ c ∈ p.1.data, isNameChar c = true ∧ c.toLower = c) ∧
      braceBal 0 p.2.data = true) →
    (∀ c ∈ junk, (isPySpace c || c = ',') = true) →
    fs.length < f →
    parseFields f (junk ++ (fieldsChars fs ++ '}' :: r)) = some (fs, r) := by
  intro fs
  induction fs with
  | nil =>
    intro junk r f _ hj hf
    obtain ⟨f', rfl⟩ : ∃ f', f = f' + 1 := ⟨f - 1, by omega⟩
    rw [show fieldsChars [] = [] from rfl, List.nil_append]
    exact parseFields_close f' r hj
  | cons p fs ih =>
    intro junk r f hfs hj hf
    obtain ⟨f', rfl⟩ : ∃ f', f = f' + 1 := ⟨f - 1, by omega⟩
    obtain ⟨hp1, hp2, hp3⟩ := hfs p (by simp)
    have hrec := @ih [',', '\n'] r f'
      (fun q hq => hfs q (by simp [hq])) (by decide) (by simp at hf; omega)
    have hstep := parseFields_step f' ([',', '\n'] ++ (fieldsChars fs ++ '}' :: r))
      hj hp1 (fun c hc => (hp2 c hc).1) hp3 hrec
    have hshape : junk ++ ' ' :: (p.1.data ++ ' ' :: '=' :: ' ' :: '{' ::
        (p.2.data ++ '}' :: ([',', '\n'] ++ (fieldsChars fs ++ '}' :: r)))) =
        junk ++ (fieldsChars (p :: fs) ++ '}' :: r) := by
      rw [show fieldsChars (p :: fs) = fieldChars p ++ fieldsChars fs from rfl]
      simp [fieldChars, List.append_assoc]
    rw [hshape] at hstep
    have hname : p.1.data.map Char.toLower = p.1.data :=
      List.map_congr_left (fun c hc => (hp2 c hc).2) |>.trans (List.map_id _)
    rw [hstep, hname]

theorem parseEntry_dumps {e : BibEntry} (h : tameEntry e)
    (r : List Char) :
    parseEntry (e.ENTRYTYPE.data ++ '{' :: (e.ID.data ++ ',' ::
      ('\n' :: (fieldsChars e.fields ++ '}' :: r)))) = some (e, r) := by
  obtain ⟨hty, htyw, hfields, hidc, -⟩ := h
  have htake : (e.ENTRYTYPE.data ++ '{' :: (e.ID.data ++ ',' ::
      ('\n' :: (fieldsChars e.fields ++ '}' :: r)))).takeWhile isWordChar =
      e.ENTRYTYPE.data :=
    takeWhile_append_stop (fun c hc => (htyw c hc).1) (by decide) _
  have hdrop : (e.ENTRYTYPE.data ++ '{' :: (e.ID.data ++ ',' ::
      ('\n' :: (fieldsChars e.fields ++ '}' :: r)))).dropWhile isWordChar =
      '{' :: (e.ID.data ++ ',' :: ('\n' :: (fieldsChars e.fields ++ '}' :: r))) :=
    dropWhile_append_stop (fun c hc => (htyw c hc).1) (by decide) _
  have htyne : e.ENTRYTYPE.data.isEmpty = false := by
    cases hx : e.ENTRYTYPE.data with
    | nil => exact absurd hx hty
    | cons a as => rfl
  have hidpred : ∀ c ∈ e.ID.data, ((c ≠ ',' : Bool) && (c ≠ '}' : Bool)) = true := by
    intro c hc
    simp [(hidc c hc).2.2.2.2, (hidc c hc).2.2.1]
  have hidtake : (e.ID.data ++ ',' :: ('\n' :: (fieldsChars e.fields ++ '}' :: r))).takeWhile
      (fun c => c ≠ ',' && c ≠ '}') = e.ID.data :=
    takeWhile_append_stop hidpred (by decide) _
  have hiddrop : (e.ID.data ++ ',' :: ('\n' :: (fieldsChars e.fields ++ '}' :: r))).dropWhile
      (fun c => c ≠ ',' && c ≠ '}') =
      ',' :: ('\n' :: (fieldsChars e.fields ++ '}' :: r)) :=
    dropWhile_append_stop hidpred (by decide) _
  have hstrip : pyStrip e.ID.data = e.ID.data := pyStrip_all (fun c hc => (hidc c hc).1)
  have hmap : e.ENTRYTYPE.data.map Char.toLower = e.ENTRYTYPE.data :=
    List.map_congr_left (fun c hc => (htyw c hc).2) |>.trans (List.map_id _)
  have hfl : parseFields ('\n' :: (fieldsChars e.fields ++ '}' :: r)).length
      ('\n' :: (fieldsChars e.fields ++ '}' :: r)) = some (e.fields, r) := by
    have hlen : e.fields.length < ('\n' :: (fieldsChars e.fields ++ '}' :: r)).length := by
      have := fieldsChars_length_ge e.fields
      simp only [List.length_cons, List.length_append]
      omega
    have := @parseFields_dumps e.fields ['\n'] r
      ('\n' :: (fieldsChars e.fields ++ '}' :: r)).length
      (fun p hp => ⟨(hfields p hp).1,
        fun c hc => ((hfields p hp).2.1 c hc),
        (hfields p hp).2.2.1⟩)
      (by decide) hlen
    exact this
  simp only [parseEntry, htake, hdrop, htyne, Bool.false_eq_true, if_false,
    List.dropWhile_cons_of_neg (by decide : ¬ isPySpace '{' = true),
    hidtake, hiddrop, hstrip, hfl, hmap]

theorem parseAux_dumps : ∀ (es : List BibEntry) (junk : List Char) (f : Nat),
    (∀ e ∈ es, tameEntry e ∧ e.ID.data ≠ []) →
    (∀ c ∈ junk, c ≠ '@') →
    (junk ++ docChars es).length ≤ f →
    parseAux f (junk ++ docChars es) = es := by
  intro es
  induction es with
  | nil =>
    intro junk f h hj hf
    rw [show docChars [] = [] from rfl, List.append_nil]
    exact parseAux_no_at f junk hj
  | cons e tl ih =>
    intro junk f h hj hf
    obtain ⟨hte, -⟩ := h e (by simp)
    have hpe := parseEntry_dumps hte ('\n' :: '\n' :: docChars tl)
    have hdoc : docChars (e :: tl) =
        '@' :: (e.ENTRYTYPE.data ++ '{' :: (e.ID.data ++ ',' ::
          ('\n' :: (fieldsChars e.fields ++ '}' :: ('\n' :: '\n' :: docChars tl))))) := by
      rw [show docChars (e :: tl) = entryChars e ++ docChars tl from rfl]
      simp [entryChars, List.append_assoc]
    rw [parseAux_congr f (junk ++ docChars (e :: tl)).length _ hf (Nat.le_refl _),
      List.length_append, parseAux_skip junk _ _ hj, hdoc, List.length_cons,
      parseAux_at_some _ hpe]
    have hle : ('\n' :: '\n' :: docChars tl).length ≤
        (e.ENTRYTYPE.data ++ '{' :: (e.ID.data ++ ',' ::
          ('\n' :: (fieldsChars e.fields ++ '}' :: ('\n' :: '\n' :: docChars tl))))).length := by
      simp only [List.length_append, List.length_cons]
      omega
    rw [parseAux_congr _ ('\n' :: '\n' :: docChars tl).length _ hle (Nat.le_refl _)]
    exact congrArg (List.cons e)
      (ih ['\n', '\n'] _ (fun x hx => h x (by simp [hx])) (by decide) (Nat.le_refl _))

/-! The serialized document as a raw-entry document, for the two raw
passes. -/

theorem docChars_renderListA (es : List BibEntry) :
    docChars es = renderListA (es.map toRawA) := by
  induction es with
  | nil => rfl
  | cons e tl ih =>
    show entryChars e ++ docChars tl = renderA (toRawA e) ++ renderListA (tl.map toRawA)
    rw [ih]
    rfl

theorem docChars_renderListB (es : List BibEntry) :
    docChars es = renderListB (es.map toRawB) := by
  induction es with
  | nil => rfl
  | cons e tl ih =>
    show entryChars e ++ docChars tl = renderB (toRawB e) ++ renderListB (tl.map toRawB)
    rw [ih]
    rfl

theorem wfA_toRawA {e : BibEntry} (h : tameEntry e) (hid : e.ID.data ≠ []) :
    wfA (toRawA e) := by
  obtain ⟨h1, h2, h3, h4, -⟩ := h
  refine ⟨h1, fun c hc => (h2 c hc).1, hid, fun c hc => (h4 c hc).2.2.2.2, ?_⟩
  intro c hc
  rcases List.mem_cons.mp hc with rfl | hc
  · decide
  rcases List.mem_append.mp hc with hc | hc
  · exact fieldsChars_no_at (fun p hp => ⟨fun x hx => ((h3 p hp).2.1 x hx).1,
      fun x hx => (h3 p hp).2.2.2 x hx⟩) c hc
  · simp only [List.mem_cons, List.not_mem_nil, or_false] at hc
    rcases hc with rfl | rfl | rfl
    · decide
    · decide
    · decide

theorem id_not_all_ws {e : BibEntry} (h4 : ∀ c ∈ e.ID.data,
      isPySpace c = false ∧ c ≠ '{' ∧ c ≠ '}' ∧ c ≠ '@' ∧ c ≠ ',')
    (hid : e.ID.data ≠ []) : e.ID.data.all isPySpace = false := by
  obtain ⟨a, as, ha⟩ : ∃ a as, e.ID.data = a :: as := by
    cases hx : e.ID.data with
    | nil => exact absurd hx hid
    | cons a as => exact ⟨a, as, rfl⟩
  rw [ha]
  have h4a := h4 a (by rw [ha]; simp)
  simp [List.all_cons, h4a.1]

theorem wfB_toRawB {e : BibEntry} (h : tameEntry e) (hid : e.ID.data ≠ []) :
    wfB (toRawB e) := by
  obtain ⟨h1, h2, h3, h4, -⟩ := h
  refine ⟨h1, fun c hc => (h2 c hc).1, ?_, ?_, ?_, ?_⟩
  · intro c hc
    simp only [toRawB, List.mem_cons, List.not_mem_nil, or_false] at hc
    rcases hc with rfl | rfl
    · decide
    · decide
  · intro c hc
    rcases List.mem_cons.mp hc with rfl | hc
    · decide
    · exact fieldsChars_no_at (fun p hp => ⟨fun x hx => ((h3 p hp).2.1 x hx).1,
        fun x hx => (h3 p hp).2.2.2 x hx⟩) c hc
  · intro hall
    have hfalse := id_not_all_ws h4 hid
    have hshow : (toRawB e).id = e.ID.data := rfl
    rw [hshow, hfalse] at hall
    exact absurd hall (by decide)
  · intro _
    obtain ⟨a, as, ha⟩ : ∃ a as, e.ID.data = a :: as := by
      cases hx : e.ID.data with
      | nil => exact absurd hx hid
      | cons a as => exact ⟨a, as, rfl⟩
    have h4a := h4 a (by rw [ha]; simp)
    refine ⟨?_, ?_, ?_⟩
    · show isPySpace ((e.ID.data).headD ' ') = false
      rw [ha]
      exact h4a.1
    · show (e.ID.data).headD ' ' ≠ ','
      rw [ha]
      exact h4a.2.2.2.2
    · intro c hc
      exact (h4 c hc).2.2.2.1

theorem normA_toRawA {e : BibEntry} (h : tameEntry e) : normA (toRawA e) = toRawA e := by
  obtain ⟨-, -, -, h4, -⟩ := h
  show (⟨(toRawA e).ty, fixId e.ID.data, (toRawA e).body⟩ : RawEntryA) = toRawA e
  rw [fixId_ws_free (fun c hc => (h4 c hc).1)]
  rfl

theorem normB_toRawB {e : BibEntry} (h : tameEntry e) (hid : e.ID.data ≠ []) :
    normB (toRawB e) = toRawB e := by
  obtain ⟨-, -, -, h4, -⟩ := h
  have hshow : (toRawB e).id = e.ID.data := rfl
  unfold normB
  rw [hshow, id_not_all_ws h4 hid]
  simp

/-- On a document consisting of the summary comment and the serialized
tame entries with nonempty identifiers, both raw passes are the
identity, the modelled parse recovers the entries, and the structured
fixer corrects nothing. -/
theorem second_run_zero (es : List BibEntry) (c : Nat)
    (h : ∀ e' ∈ es, tameEntry e' ∧ e'.ID.data ≠ []) :
    (pipeline (comentario c ++ dumps es)).2.2 = 0 := by
  have h2 : (comentario c ++ dumps es).data = (comentario c).data ++ docChars es := by
    rw [String.data_append, dumps_chars]
  have hwfa : ∀ x ∈ es.map toRawA, wfA x := by
    intro x hx
    obtain ⟨e', he', rfl⟩ := List.mem_map.mp hx
    exact wfA_toRawA (h e' he').1 (h e' he').2
  have hwfb : ∀ x ∈ es.map toRawB, wfB x := by
    intro x hx
    obtain ⟨e', he', rfl⟩ := List.mem_map.mp hx
    exact wfB_toRawB (h e' he').1 (h e' he').2
  have hmapa : (es.map toRawA).map normA = es.map toRawA := by
    rw [List.map_map]
    exact List.map_congr_left (fun e' he' => normA_toRawA (h e' he').1)
  have hmapb : (es.map toRawB).map normB = es.map toRawB := by
    rw [List.map_map]
    exact List.map_congr_left (fun e' he' => normB_toRawB (h e' he').1 (h e' he').2)
  have hAdata : subA (comentario c ++ dumps es).data = (comentario c ++ dumps es).data := by
    rw [h2, subA_append_no_at (comentario_no_at c) _, docChars_renderListA,
      subA_renderListA hwfa, hmapa]
  have hAeq : corrigir_espacos_ids_raw (comentario c ++ dumps es) =
      comentario c ++ dumps es := by
    unfold corrigir_espacos_ids_raw
    rw [hAdata]
  have hBdata : subB (comentario c ++ dumps es).data = (comentario c ++ dumps es).data := by
    rw [h2, subB_append_no_at (comentario_no_at c) _, docChars_renderListB,
      subB_renderListB hwfb, hmapb]
  have hBeq : corrigir_ids_vazios_raw (comentario c ++ dumps es) =
      comentario c ++ dumps es := by
    unfold corrigir_ids_vazios_raw
    rw [hBdata]
  have hparse : parseBib (comentario c ++ dumps es) = es := by
    unfold parseBib
    rw [h2]
    exact parseAux_dumps es (comentario c).data _ h (comentario_no_at c) (Nat.le_refl _)
  show (corrigir_bibtex (corrigir_ids_vazios_raw (corrigir_espacos_ids_raw
    (comentario c ++ dumps es)))).2.2 = 0
  rw [hAeq, hBeq]
  have hcb : (corrigir_bibtex (comentario c ++ dumps es)).2.2 =
      (fixLoop es (existingIds es) 1 0).2.2 := by
    show (corrigirEntries (parseBib (comentario c ++ dumps es))).2.2 = _
    rw [hparse]
    rfl
  rw [hcb, (fixLoop_counts es (existingIds es) 1 0).1]
  have hfil : es.filter (fun e' => pyStripS e'.ID == "") = [] := by
    rw [List.filter_eq_nil_iff]
    intro e' he'
    obtain ⟨⟨-, -, -, hid4, -⟩, hne⟩ := h e' he'
    have hstrip : pyStripS e'.ID = e'.ID := by
      show (⟨pyStrip e'.ID.data⟩ : String) = e'.ID
      rw [pyStrip_all (fun x hx => (hid4 x hx).1)]
    intro hbeq
    rw [hstrip] at hbeq
    have hde : e'.ID = "" := by simpa using hbeq
    exact hne (congrArg String.data hde)
  rw [hfil]
  rfl

/-- C9: the full three-stage pipeline is idempotent with respect to
corrections — running it a second time on the corrected output text of
a first run yields `corrected_entries = 0`: the first run's summary
comment contains no `@`, its serializer writes every entry back with a
nonempty identifier, so on the second run the whitespace-ID pass and
the empty-ID pass are the identity, the parse recovers the same
entries, and the structured fixer corrects none of them.  The entries
of the spec-modelled first-run parse are assumed tame (entry types and
field names lowercase word/name characters, field values
brace-balanced and `@`-free — commas, whitespace and nested braces in
values, such as `Smith, John`, are fine — identifiers whitespace-free,
the year tame once stripped). -/
theorem c9_second_run (s : String)
    (h : ∀ e ∈ parseBib (corrigir_ids_vazios_raw (corrigir_espacos_ids_raw s)),
      tameEntry e) :
    (pipeline (pipeline s).1).2.2 = 0 := by
  have htame := fixLoop_tame
    (parseBib (corrigir_ids_vazios_raw (corrigir_espacos_ids_raw s)))
    (existingIds (parseBib (corrigir_ids_vazios_raw (corrigir_espacos_ids_raw s)))) 1 0 h
  have hp1 : (pipeline s).1 =
      comentario (corrigirEntries (parseBib (corrigir_ids_vazios_raw
          (corrigir_espacos_ids_raw s)))).2.2 ++
        dumps (corrigirEntries (parseBib (corrigir_ids_vazios_raw
          (corrigir_espacos_ids_raw s)))).1 := rfl
  rw [hp1]
  exact second_run_zero _ _ htame

/-- C9 witness: the pipeline applied twice to a concrete entry with an
empty identifier and an author field value containing a comma; the
first run corrects it, the second corrects nothing. -/
theorem c9_second_run_witness :
    (∀ e ∈ parseBib (corrigir_ids_vazios_raw (corrigir_espacos_ids_raw
        "@article\x7b, title=\x7bDeep Learning\x7d, year=\x7b2020\x7d, author=\x7bSmith, John\x7d\x7d")),
      tameEntry e) ∧
      (pipeline (pipeline
        "@article\x7b, title=\x7bDeep Learning\x7d, year=\x7b2020\x7d, author=\x7bSmith, John\x7d\x7d").1).2.2 = 0 :=
  ⟨by decide, c9_second_run
    "@article\x7b, title=\x7bDeep Learning\x7d, year=\x7b2020\x7d, author=\x7bSmith, John\x7d\x7d"
    (by decide)⟩

end BibFix
